import Mathlib

/-!
Verification development for the mensa scraping program (src/scrape.py).

The Python source is shallowly embedded: strings are lists of characters,
calendar dates are integers counting days, the per-day / per-heading /
per-card loops of the scraper become folds over explicit page structures,
and the external collaborators (NFKD normalisation, the HTTP client, the
rendered pages, ISO date formatting) are parameters of an environment
record.  Exceptions that the Python code lets escape are modelled with
Except; exceptions that it swallows become Option results or skips.
-/

namespace Scrape

/-- Strings of the embedded program: lists of characters. -/
abbrev Str := List Char

/-- Whitespace as matched by the regular expression class backslash-s of the
source (and by the argument-free strip), restricted to the code points that
survive the ASCII projection in squash: space, tab, LF, VT, FF, CR and the
four separator control characters 0x1C-0x1F. -/
def isSpaceChar (c : Char) : Bool :=
  decide (c.toNat = 32 ∨ c.toNat = 9 ∨ c.toNat = 10 ∨ c.toNat = 11 ∨
    c.toNat = 12 ∨ c.toNat = 13 ∨ (28 ≤ c.toNat ∧ c.toNat ≤ 31))

/-- The characters kept by encode("ascii", "ignore") in squash (line 23). -/
def isAsciiChar (c : Char) : Bool :=
  decide (c.toNat < 128)

/-- encode("ascii", "ignore").decode() of line 23: drop every character
without a plain-ASCII representation. -/
def asciiIgnore (s : Str) : Str :=
  s.filter isAsciiChar

/-- The substitution of line 21-22: every maximal run of whitespace becomes
one single space.  The boolean argument records whether the previous
character belonged to a whitespace run that has already emitted its space. -/
def collapseAux : Bool → Str → Str
  | _, [] => []
  | b, c :: rest =>
    if isSpaceChar c then
      if b then collapseAux true rest else ' ' :: collapseAux true rest
    else c :: collapseAux false rest

/-- re.sub of whitespace-runs by a single space (lines 21-22). -/
def collapseWs (s : Str) : Str :=
  collapseAux false s

/-- Argument-free str.strip() of line 24: remove leading and trailing
whitespace. -/
def stripStr (s : Str) : Str :=
  ((s.dropWhile isSpaceChar).reverse.dropWhile isSpaceChar).reverse

/-- squash of lines 19-24: NFKD-decompose, drop non-ASCII characters,
collapse whitespace runs and strip the ends.  The NFKD decomposition is
performed by an external library; it enters as the parameter nfkd giving
the decomposition of each character. -/
def squash (nfkd : Char → List Char) (text : Str) : Str :=
  stripStr (collapseWs (asciiIgnore (text.flatMap nfkd)))

/-! ### daterange (lines 27-34)

Dates are integers counting days, so that the timedelta step of one day is
the integer 1 and comparison of dates is integer comparison.  The while
loop of the source is embedded with a fuel argument; daterange passes
exactly enough fuel, and the termination theorem shows that any larger
amount of fuel produces the same list, i.e. the loop actually stops. -/

/-- Body of the while loop of lines 30-34: yield d, stop when d equals
stop, otherwise advance by step. -/
def daterangeAux : Nat → Int → Int → Int → List Int
  | 0, _, _, _ => []
  | fuel + 1, d, stop, step =>
    d :: (if d = stop then [] else daterangeAux fuel (d + step) stop step)

/-- daterange of lines 27-34: the step is chosen from the comparison of the
endpoints before iteration begins. -/
def daterange (start stop : Int) : List Int :=
  daterangeAux ((stop - start).natAbs + 1) start stop
    (if start ≤ stop then 1 else -1)

/-! ### Text helpers of the extraction loop -/

/-- ASCII lowercasing, the effect of the case-insensitive regular
expression flags of the source on its ASCII patterns. -/
def toLowerAscii (c : Char) : Char :=
  if 'A' ≤ c ∧ c ≤ 'Z' then Char.ofNat (c.toNat + 32) else c

/-- Lowercase every character of a string. -/
def lowerStr (s : Str) : Str :=
  s.map toLowerAscii

/-- The boilerplate filter of line 68: a case-insensitive match of the
pattern anchored at the start, alternatives beilagensalat and regio
followed by an optional hyphen or space and apfel. -/
def matchesBoilerplate (ln : Str) : Bool :=
  let l := lowerStr ln
  "beilagensalat".toList.isPrefixOf l || "regio-apfel".toList.isPrefixOf l ||
    "regio apfel".toList.isPrefixOf l || "regioapfel".toList.isPrefixOf l

/-- Word-constituent characters of the regular expression word boundary,
restricted to ASCII. -/
def isWordChar (c : Char) : Bool :=
  decide (('a' ≤ c ∧ c ≤ 'z') ∨ ('A' ≤ c ∧ c ≤ 'Z') ∨ ('0' ≤ c ∧ c ≤ '9') ∨ c = '_')

/-- Does the word Mensa, delimited by word boundaries and compared
case-insensitively, start at the current position?  The first argument is
the character just before the position, if any. -/
def matchMensaAt (prev : Option Char) (s : Str) : Bool :=
  prev.all (fun c => !isWordChar c) &&
    decide (lowerStr (s.take 5) = "mensa".toList) &&
    (s.drop 5).head?.all (fun c => !isWordChar c)

/-- Scan all positions of a string for the delimited word Mensa. -/
def hasWordMensaAux : Option Char → Str → Bool
  | _, [] => false
  | prev, c :: rest => matchMensaAt prev (c :: rest) || hasWordMensaAux (some c) rest

/-- The heading filter of line 55: the regular expression word Mensa with
boundaries, case-insensitive, searched anywhere in the heading text. -/
def hasWordMensa (s : Str) : Bool :=
  hasWordMensaAux none s

/-- str.replace of a single character by a single character, used for the
comma and semicolon stripping of lines 56, 73, 82 and 88. -/
def replaceChar (a b : Char) (s : Str) : Str :=
  s.map (fun c => if c = a then b else c)

/-- The literal separator run of thirteen hyphens replaced on line 72. -/
def dashRun : Str :=
  List.replicate 13 '-'

/-- Structural worker for the thirteen-hyphen replacement: the fuel
bounds the number of steps and any fuel at least the length of the string
is enough, since every step consumes at least one character. -/
def replaceDashesAux : Nat → Str → Str
  | 0, _ => []
  | _, [] => []
  | fuel + 1, c :: rest =>
    if dashRun.isPrefixOf (c :: rest) then ' ' :: replaceDashesAux fuel (rest.drop 12)
    else c :: replaceDashesAux fuel rest

/-- str.replace of the thirteen-hyphen run by a space (line 72):
non-overlapping occurrences, scanned left to right. -/
def replaceDashes (s : Str) : Str :=
  replaceDashesAux s.length s

/-- Alphanumeric characters of a lowercased slug input. -/
def isAlnumChar (c : Char) : Bool :=
  decide (('a' ≤ c ∧ c ≤ 'z') ∨ ('0' ≤ c ∧ c ≤ '9'))

/-- Structural worker for the alphanumeric runs: the fuel bounds the
number of steps and any fuel at least the length of the string is enough,
since every step consumes at least one character. -/
def alnumWordsAux : Nat → Str → List Str
  | 0, _ => []
  | _, [] => []
  | fuel + 1, c :: rest =>
    if isAlnumChar c then
      ((c :: rest).takeWhile isAlnumChar) :: alnumWordsAux fuel (rest.dropWhile isAlnumChar)
    else alnumWordsAux fuel rest

/-- The maximal alphanumeric runs of a string, in order. -/
def alnumWords (s : Str) : List Str :=
  alnumWordsAux s.length s

/-- Modelled from the spec: the external slug generator of section 6 —
ASCII lowercase, maximal alphanumeric runs joined by single hyphens,
everything else discarded; transliteration of non-ASCII characters is not
modelled. -/
def slug (s : Str) : Str :=
  List.intercalate ['-'] (alnumWords (lowerStr s))

/-! ### Image URL resolution (lines 90-108) -/

/-- Truthiness of an optional Python string: absent and empty are falsy,
as in the or-chains of lines 94-99 and the checks of lines 100 and 106. -/
def pyTruthy : Option Str → Option Str
  | some [] => none
  | o => o

/-- Lines 97-98: split the source-set attribute on commas, take the first
entry, split it on whitespace and take the first token.  The result is
none exactly when the token list is empty and indexing it raises
IndexError in the source. -/
def srcsetFirstToken (ss : Str) : Option Str :=
  let entry := ss.takeWhile (fun c => c != ',')
  let tok := (entry.dropWhile isSpaceChar).takeWhile (fun c => !isSpaceChar c)
  if tok.isEmpty then none else some tok

/-- The remainder of a string after the first occurrence of a pattern. -/
def afterSub (pat : Str) : Str → Option Str
  | [] => if pat.isEmpty then some [] else none
  | c :: rest =>
    if pat.isPrefixOf (c :: rest) then some ((c :: rest).drop pat.length)
    else afterSub pat rest

/-- Substring containment, the in-operator of line 102 and the style
attribute selector of line 101. -/
def containsSub (pat s : Str) : Bool :=
  (afterSub pat s).isSome

/-- Double or single quote, the optional quotes of the regular expression
of line 103. -/
def isQuoteChar (c : Char) : Bool :=
  decide (c.toNat = 34 ∨ c.toNat = 39)

/-- The greedy optional opening quote of the url pattern of line 103. -/
def dropLeadingQuote : Str → Str
  | [] => []
  | c :: rest => if isQuoteChar c then rest else c :: rest

/-- The lazy capture of line 103: the shortest run of characters after
which an optional quote and a closing parenthesis follow; none when no
closing parenthesis is found and the regular expression fails to match. -/
def bgCapture : Str → Option Str
  | [] => none
  | c :: rest =>
    if c = ')' then some []
    else if isQuoteChar c && rest.head? == some ')' then some []
    else (bgCapture rest).map (fun t => c :: t)

/-- The regular expression search of line 103: the quoted or unquoted URL
inside the first url parenthesis group of a style declaration. -/
def extractBgUrl (style : Str) : Option Str :=
  match afterSub "url(".toList style with
  | none => none
  | some rest => bgCapture (dropLeadingQuote rest)

/-- The image element markup the card loop inspects. -/
structure ImgTag where
  src : Option Str
  dataSrc : Option Str
  srcset : Option Str
deriving Repr, DecidableEq

/-- The per-card markup the extraction loop of lines 61-132 queries: the
stripped text lines of the description block, the texts of the inline-flex
badges in document order, the text of the first span, the first embedded
image element and the style attribute of the element the
background-image selector of line 101 finds. -/
structure Card where
  pTag : Option (List Str)
  inlineFlexTexts : List Str
  spanText : Option Str
  imgTag : Option ImgTag
  bgStyle : Option Str
deriving Repr, DecidableEq

/-- A heading of the page: its text and the cards of the next container
element, when one exists. -/
structure Heading where
  text : Str
  container : Option (List Card)
deriving Repr, DecidableEq

/-- A rendered page: its second-level headings in document order. -/
structure Page where
  headings : List Heading
deriving Repr, DecidableEq

/-- Lines 91-105: the or-chain over the direct source attribute, the
lazy-load attribute and the first source-set token, then the
background-image fallback when all of those are falsy.  The error value
is the IndexError of line 97 escaping when the first source-set entry
holds no token. -/
def resolveImgUrl (card : Card) : Except Unit (Option Str) := do
  let fromImg : Option Str ←
    match card.imgTag with
    | none => pure none
    | some img =>
      match pyTruthy img.src with
      | some u => pure (some u)
      | none =>
        match pyTruthy img.dataSrc with
        | some u => pure (some u)
        | none =>
          match pyTruthy img.srcset with
          | none => pure none
          | some ss =>
            match srcsetFirstToken ss with
            | some t => pure (some t)
            | none => .error ()
  match fromImg with
  | some u => pure (some u)
  | none =>
    match card.bgStyle with
    | none => pure none
    | some style =>
      if containsSub "background-image".toList style then
        pure (pyTruthy (extractBgUrl style))
      else pure none

/-- Modelled from the spec, for comparison with resolveImgUrl (sections
4.4 and the third claim): the resolution order as the spec words it —
direct source attribute, then lazy-load attribute, then the first
source-set candidate when it yields a URL token, and the background-image
rule exactly when no embedded image element yields a URL; no failure
mode. -/
def specResolveImageUrl (card : Card) : Option Str :=
  let fromImg : Option Str :=
    match card.imgTag with
    | none => none
    | some img =>
      match pyTruthy img.src with
      | some u => some u
      | none =>
        match pyTruthy img.dataSrc with
        | some u => some u
        | none =>
          match img.srcset with
          | none => none
          | some ss => srcsetFirstToken ss
  match fromImg with
  | some u => some u
  | none =>
    match card.bgStyle with
    | none => none
    | some style =>
      if containsSub "background-image".toList style then
        pyTruthy (extractBgUrl style)
      else none

/-- The fixed site base of line 14. -/
def baseUrl : Str :=
  "https://mensa.fachschaft.tf/".toList

/-- Modelled from the spec: urljoin against the fixed site base (section
4.4) — absolute http or https URLs pass through, root-relative references
are resolved against the host, other references against the root
directory of the base; exotic schemes and protocol-relative references
are not modelled. -/
def urljoinBase (u : Str) : Str :=
  if "https://".toList.isPrefixOf u || "http://".toList.isPrefixOf u then u
  else if u.head? == some '/' then "https://mensa.fachschaft.tf".toList ++ u
  else baseUrl ++ u

/-- Modelled from the spec: the path component of a URL (urlparse of line
113) — skip the scheme and authority of an http or https URL and keep
everything before the first question mark or hash. -/
def urlPath (u : Str) : Str :=
  let isHttp := "https://".toList.isPrefixOf u || "http://".toList.isPrefixOf u
  let afterScheme :=
    if "https://".toList.isPrefixOf u then u.drop 8
    else if "http://".toList.isPrefixOf u then u.drop 7
    else u
  let p := if isHttp then afterScheme.dropWhile (fun c => c != '/') else afterScheme
  p.takeWhile (fun c => c != '?' && c != '#')

/-- Modelled from the spec: the pathlib suffix of the final path segment
(line 113) — the part from the last dot on, empty when the segment has no
dot, or the dot is its first character, or the dot is its last
character. -/
def pathSuffix (p : Str) : Str :=
  let name := (p.reverse.takeWhile (fun c => c != '/')).reverse
  let k := (name.reverse.takeWhile (fun c => c != '.')).length
  if k = name.length then []
  else
    let i := name.length - 1 - k
    if 0 < i ∧ i + 1 < name.length then name.drop i else []

/-- Line 113: the extension of the resolved URL, defaulting to .jpg when
the path suffix is empty. -/
def extOf (url : Str) : Str :=
  let s := pathSuffix (urlPath url)
  if s.isEmpty then ".jpg".toList else s

/-! ### The per-card pipeline (lines 61-132) -/

/-- The mutable data of the run: the set of files on disk, the log of
network fetches performed, and the accumulated rows. -/
structure ScrapeState where
  fs : List Str
  fetches : List Str
  rows : List (List Str)
deriving Repr, DecidableEq

/-- The external collaborators and parameters of one run: the NFKD
decomposition of the unicodedata library, the blocking HTTP client (none
models a raised network error), the rendered page of each day (none
models a navigation failure), ISO date formatting, and the output
directory. -/
structure Env where
  nfkd : Char → List Char
  net : Str → Option Unit
  pages : Int → Option Page
  iso : Int → Str
  outDir : Str

/-- Lines 66-69: keep the lines that do not match the boilerplate pattern
and strip each kept line. -/
def descriptionLines (pLines : List Str) : List Str :=
  (pLines.filter (fun ln => !matchesBoilerplate ln)).map stripStr

/-- Lines 72-74: join the kept lines with single spaces, replace the
thirteen-hyphen separator, strip commas and semicolons, squash. -/
def descriptionOf (nfkd : Char → List Char) (lines : List Str) : Str :=
  squash nfkd (replaceChar ';' ' ' (replaceChar ',' ' '
    (replaceDashes (List.intercalate [' '] lines))))

/-- Lines 77-82: the first inline-flex badge with non-empty text, the
non-vegetarian default otherwise, commas and semicolons stripped. -/
def dietOf (card : Card) : Str :=
  replaceChar ';' ' ' (replaceChar ',' ' '
    ((card.inlineFlexTexts.find? (fun t => !t.isEmpty)).getD "Nicht-vegetarisch".toList))

/-- Lines 85-88: the text of the first span, the meal default otherwise,
commas and semicolons stripped. -/
def dishTypeOf (card : Card) : Str :=
  replaceChar ';' ' ' (replaceChar ',' ' ' (card.spanText.getD "meal".toList))

/-- Line 56: the squashed heading text with commas and semicolons
stripped. -/
def mensaOf (nfkd : Char → List Char) (htext : Str) : Str :=
  replaceChar ';' ' ' (replaceChar ',' ' ' (squash nfkd htext))

/-- Lines 111-115: the destination path of the image of a card — output
directory, ISO day directory, and the slugged mensa and dish type joined
by an underscore with the URL extension. -/
def destPath (outDir dayIso mensa dishType url : Str) : Str :=
  outDir ++ '/' :: dayIso ++ '/' ::
    (slug mensa ++ '_' :: slug dishType ++ extOf url)

/-- The destination path of a card whose image resolved to u: it depends
only on the environment, the day, the mensa and the card, never on the
run state. -/
def cardPath (env : Env) (dayIso mensa : Str) (card : Card) (u : Str) : Str :=
  destPath env.outDir dayIso mensa (dishTypeOf card) (urljoinBase u)

/-- The seven-field row of lines 124-132 for one card. -/
def rowOf (env : Env) (mensa : Str) (pLines : List Str) (card : Card) (fpath : Str) :
    List Str :=
  [descriptionOf env.nfkd (descriptionLines pLines), "no".toList, "no".toList,
   dishTypeOf card, dietOf card, mensa, fpath]

/-- The destination path a card would use, when its image URL resolves. -/
def destPathOfCard (env : Env) (dayIso mensa : Str) (card : Card) : Option Str :=
  match resolveImgUrl card with
  | .ok (some u) => some (cardPath env dayIso mensa card u)
  | _ => none

/-- The loop body of lines 62-132 for one card: skip when the description
block is missing or filters to nothing, propagate the IndexError of the
source-set chain, skip when no image URL resolves, then fetch unless the
destination path already exists, dropping the card on a network failure,
and append the seven-field row. -/
def processCard (env : Env) (dayIso mensa : Str) (st : ScrapeState) (card : Card) :
    Except Unit ScrapeState :=
  match card.pTag with
  | none => .ok st
  | some pLines =>
    let lines := descriptionLines pLines
    if lines.isEmpty then .ok st
    else
      match resolveImgUrl card with
      | .error e => .error e
      | .ok none => .ok st
      | .ok (some u) =>
        let imgUrl := urljoinBase u
        let fpath := cardPath env dayIso mensa card u
        let row := rowOf env mensa pLines card fpath
        if fpath ∈ st.fs then .ok { st with rows := st.rows ++ [row] }
        else
          match env.net imgUrl with
          | some _ => .ok ⟨fpath :: st.fs, st.fetches ++ [imgUrl], st.rows ++ [row]⟩
          | none => .ok st

/-- The card loop of line 61, in document order. -/
def processCards (env : Env) (dayIso mensa : Str) :
    List Card → ScrapeState → Except Unit ScrapeState
  | [], st => .ok st
  | c :: cs, st =>
    match processCard env dayIso mensa st c with
    | .error e => .error e
    | .ok st2 => processCards env dayIso mensa cs st2

/-- Lines 55-59 for one heading: only headings whose text holds the word
Mensa are processed, and a heading with no following container is
skipped. -/
def processHeading (env : Env) (dayIso : Str) (st : ScrapeState) (h : Heading) :
    Except Unit ScrapeState :=
  if hasWordMensa h.text then
    match h.container with
    | none => .ok st
    | some cards => processCards env dayIso (mensaOf env.nfkd h.text) cards st
  else .ok st

/-- The heading loop of line 55, in document order. -/
def processHeadings (env : Env) (dayIso : Str) :
    List Heading → ScrapeState → Except Unit ScrapeState
  | [], st => .ok st
  | h :: hs, st =>
    match processHeading env dayIso st h with
    | .error e => .error e
    | .ok st2 => processHeadings env dayIso hs st2

/-- Lines 46-53 for one day: a navigation failure skips the day, an
obtained page is processed heading by heading. -/
def scrapeDay (env : Env) (day : Int) (st : ScrapeState) : Except Unit ScrapeState :=
  match env.pages day with
  | none => .ok st
  | some page => processHeadings env (env.iso day) page.headings st

/-- The day loop of line 45, in the order the date range yields. -/
def scrapeDays (env : Env) : List Int → ScrapeState → Except Unit ScrapeState
  | [], st => .ok st
  | d :: ds, st =>
    match scrapeDay env d st with
    | .error e => .error e
    | .ok st2 => scrapeDays env ds st2

/-- The scrape entry point of lines 38-135: the day loop over the date
range, started from the files already on disk, returning the accumulated
rows. -/
def scrape (env : Env) (start stop : Int) (fs0 : List Str) :
    Except Unit (List (List Str)) :=
  (scrapeDays env (daterange start stop) ⟨fs0, [], []⟩).map (fun st => st.rows)

/-- The declared header of lines 144-147. -/
def headerRow : List Str :=
  ["description".toList, "Beilagensalat".toList, "Regio Apfel".toList,
   "type".toList, "diet".toList, "mensa".toList, "image_path".toList]

/-- Modelled from the spec: save_csv of lines 139-148 emits the header row
followed by the accumulated rows in order; the byte-level delimiter
escaping of the external csv writer is not modelled. -/
def save_csv (rows : List (List Str)) : List (List Str) :=
  headerRow :: rows

/-! ### Row blocks in processing order

The following replay functions carve the row list of a run into the
consecutive blocks contributed by each card, each heading and each day;
they are defined directly in terms of the loop bodies above. -/

/-- The rows each card of a list contributes, in order. -/
def cardDeltas (env : Env) (dayIso mensa : Str) :
    List Card → ScrapeState → List (List (List Str))
  | [], _ => []
  | c :: cs, st =>
    match processCard env dayIso mensa st c with
    | .error _ => []
    | .ok st2 => (st2.rows.drop st.rows.length) :: cardDeltas env dayIso mensa cs st2

/-- The rows each heading of a list contributes, in order. -/
def headingDeltas (env : Env) (dayIso : Str) :
    List Heading → ScrapeState → List (List (List Str))
  | [], _ => []
  | h :: hs, st =>
    match processHeading env dayIso st h with
    | .error _ => []
    | .ok st2 => (st2.rows.drop st.rows.length) :: headingDeltas env dayIso hs st2

/-- The rows each day of a list contributes, in order. -/
def dayDeltas (env : Env) : List Int → ScrapeState → List (List (List Str))
  | [], _ => []
  | d :: ds, st =>
    match scrapeDay env d st with
    | .error _ => []
    | .ok st2 => (st2.rows.drop st.rows.length) :: dayDeltas env ds st2

/-- A string free of commas and semicolons. -/
def sepFree (s : Str) : Bool :=
  decide (',' ∉ s ∧ ';' ∉ s)

/-- Well-formedness of one output row: exactly seven fields, and the
description, type, diet and mensa fields free of commas and
semicolons. -/
def rowOk (r : List Str) : Bool :=
  decide (r.length = 7) && sepFree (r.getD 0 []) && sepFree (r.getD 3 []) &&
    sepFree (r.getD 4 []) && sepFree (r.getD 5 [])

/-! ### Concrete cards, pages and environments used by the claims -/

/-- The worked example of the spec: one card with two description lines,
a vegan badge, a main-dish label and a direct image source. -/
def cardExample : Card :=
  ⟨some ["Pasta Bolognese".toList, "Beilagensalat optional".toList],
   ["Vegan".toList], some "Hauptgericht".toList,
   some ⟨some "/img/pasta.jpg".toList, none, none⟩, none⟩

/-- A page holding the worked example card under one matching heading. -/
def pageExample : Page :=
  ⟨[⟨"Mensa Academica".toList, some [cardExample]⟩]⟩

/-- An environment rendering the worked example page every day, with the
identity decomposition (exact for the all-ASCII inputs involved) and an
always-successful network. -/
def envExample : Env :=
  ⟨fun c => [c], fun _ => some (), fun _ => some pageExample,
   fun _ => "2024-01-01".toList, "images".toList⟩

/-- The state the worked example run reaches from an empty state. -/
def stateExample : ScrapeState :=
  ⟨["images/2024-01-01/mensa-academica_hauptgericht.jpg".toList],
   ["https://mensa.fachschaft.tf/img/pasta.jpg".toList],
   [["Pasta Bolognese".toList, "no".toList, "no".toList, "Hauptgericht".toList,
     "Vegan".toList, "Mensa Academica".toList,
     "images/2024-01-01/mensa-academica_hauptgericht.jpg".toList]]⟩

/-- A card whose image element carries only a whitespace source-set
attribute, with a background-image fallback available: the input on which
the source-set indexing of line 97 raises IndexError. -/
def cardSrcsetCrash : Card :=
  ⟨some ["Pasta".toList], [], some "Hauptgericht".toList,
   some ⟨none, none, some " ".toList⟩,
   some "background-image: url(/pic.jpg)".toList⟩

/-- A page holding the crashing card under one matching heading. -/
def pageSrcsetCrash : Page :=
  ⟨[⟨"Mensa Academica".toList, some [cardSrcsetCrash]⟩]⟩

/-- An environment rendering the crashing page. -/
def envSrcsetCrash : Env :=
  ⟨fun c => [c], fun _ => some (), fun _ => some pageSrcsetCrash,
   fun _ => "2024-01-01".toList, "images".toList⟩

/-- A card resolving to a jpg image. -/
def cardPastaJpg : Card :=
  ⟨some ["Pasta".toList], [], some "Hauptgericht".toList,
   some ⟨some "/a.jpg".toList, none, none⟩, none⟩

/-- A card with the same mensa and dish type but a png image. -/
def cardSuppePng : Card :=
  ⟨some ["Suppe".toList], [], some "Hauptgericht".toList,
   some ⟨some "/a.png".toList, none, none⟩, none⟩

/-- A page with two same-day cards of identical mensa and dish type whose
resolved image URLs differ in extension only. -/
def pageTwoExt : Page :=
  ⟨[⟨"Mensa Academica".toList, some [cardPastaJpg, cardSuppePng]⟩]⟩

/-- An environment rendering the two-extension page. -/
def envTwoExt : Env :=
  ⟨fun c => [c], fun _ => some (), fun _ => some pageTwoExt,
   fun _ => "2024-01-01".toList, "images".toList⟩

/-- The worked example environment with a comma inside the user-supplied
output directory. -/
def envCommaOutDir : Env :=
  ⟨fun c => [c], fun _ => some (), fun _ => some pageExample,
   fun _ => "2024-01-01".toList, "out,dir".toList⟩

/-- A card whose description block holds only boilerplate lines. -/
def cardBoilerplateOnly : Card :=
  ⟨some ["Beilagensalat klein".toList, "Regio-Apfel dazu".toList],
   ["Vegan".toList], some "Hauptgericht".toList,
   some ⟨some "/img/pasta.jpg".toList, none, none⟩, none⟩

/-! ## Theorems -/

/-- With enough fuel, the forward loop from start to start plus n yields
the arithmetic list of the n plus one dates. -/
theorem daterangeAux_up (n : Nat) :
    ∀ (start : Int) (fuel : Nat), n < fuel →
      daterangeAux fuel start (start + n) 1 =
        (List.range (n + 1)).map (fun i : Nat => start + (i : Int)) := by
  induction n with
  | zero =>
    intro start fuel hf
    match fuel, hf with
    | fuel + 1, _ =>
      simp [daterangeAux, List.range_succ, List.range_zero]
  | succ n ih =>
    intro start fuel hf
    match fuel, hf with
    | fuel + 1, hf =>
      have hne : start ≠ start + ((n : Int) + 1) := by omega
      have hrec := ih (start + 1) fuel (by omega)
      simp only [daterangeAux, Nat.cast_add, Nat.cast_one]
      rw [if_neg hne]
      rw [show start + ((n : Int) + 1) = (start + 1) + (n : Int) from by ring, hrec]
      rw [List.range_succ_eq_map (n + 1)]
      simp only [List.map_cons, List.map_map, List.cons.injEq]
      refine ⟨by simp, ?_⟩
      apply List.map_congr_left
      intro a _
      simp only [Function.comp_apply, Nat.succ_eq_add_one]
      push_cast
      ring

/-- With enough fuel, the backward loop from start down to start minus n
yields the arithmetic list of the n plus one dates. -/
theorem daterangeAux_down (n : Nat) :
    ∀ (start : Int) (fuel : Nat), n < fuel →
      daterangeAux fuel start (start - n) (-1) =
        (List.range (n + 1)).map (fun i : Nat => start - (i : Int)) := by
  induction n with
  | zero =>
    intro start fuel hf
    match fuel, hf with
    | fuel + 1, _ =>
      simp [daterangeAux, List.range_succ, List.range_zero]
  | succ n ih =>
    intro start fuel hf
    match fuel, hf with
    | fuel + 1, hf =>
      have hne : start ≠ start - ((n : Int) + 1) := by omega
      have hrec := ih (start - 1) fuel (by omega)
      simp only [daterangeAux, Nat.cast_add, Nat.cast_one]
      rw [if_neg hne]
      rw [show start + -1 = start - 1 from by ring]
      rw [show start - ((n : Int) + 1) = (start - 1) - (n : Int) from by ring, hrec]
      rw [List.range_succ_eq_map (n + 1)]
      simp only [List.map_cons, List.map_map, List.cons.injEq]
      refine ⟨by simp, ?_⟩
      apply List.map_congr_left
      intro a _
      simp only [Function.comp_apply, Nat.succ_eq_add_one]
      push_cast
      ring

/-- Closed form of the date range when the endpoints are ordered
forward. -/
theorem daterange_eq_up (start stop : Int) (h : start ≤ stop) :
    daterange start stop =
      (List.range ((stop - start).toNat + 1)).map (fun i : Nat => start + (i : Int)) := by
  have hn : stop = start + ((stop - start).toNat : Int) := by omega
  have habs : (stop - start).natAbs = (stop - start).toNat := by omega
  rw [daterange, if_pos h, habs]
  conv_lhs => rw [hn]
  exact daterangeAux_up _ start _ (by omega)

/-- Closed form of the date range when the endpoints are ordered
backward. -/
theorem daterange_eq_down (start stop : Int) (h : stop < start) :
    daterange start stop =
      (List.range ((start - stop).toNat + 1)).map (fun i : Nat => start - (i : Int)) := by
  have hn : stop = start - ((start - stop).toNat : Int) := by omega
  have habs : (stop - start).natAbs = (start - stop).toNat := by omega
  rw [daterange, if_neg (by omega), habs]
  conv_lhs => rw [hn]
  exact daterangeAux_down _ start _ (by omega)

/-- The last date yielded is always stop, ascending case. -/
theorem daterange_getLast_up (start stop : Int) (h : start ≤ stop) :
    (daterange start stop).getLast? = some stop := by
  rw [daterange_eq_up start stop h, List.range_succ, List.map_append]
  simp only [List.map_cons, List.map_nil]
  rw [List.getLast?_concat]
  congr 1
  omega

/-- The last date yielded is always stop, descending case. -/
theorem daterange_getLast_down (start stop : Int) (h : stop < start) :
    (daterange start stop).getLast? = some stop := by
  rw [daterange_eq_down start stop h, List.range_succ, List.map_append]
  simp only [List.map_cons, List.map_nil]
  rw [List.getLast?_concat]
  congr 1
  omega

/-- C1: for ordered endpoints the date range yields exactly the difference
in days plus one dates, strictly ascending, from start to stop; for
reversed endpoints it yields the same count of dates strictly descending
from start down to stop; and equal endpoints yield the one-element
sequence. -/
theorem daterange_inclusive_ordered (start stop : Int) :
    (start ≤ stop →
      (daterange start stop).length = (stop - start).toNat + 1 ∧
      (daterange start stop).Chain' (fun a b => a < b) ∧
      (daterange start stop).head? = some start ∧
      (daterange start stop).getLast? = some stop) ∧
    (stop < start →
      (daterange start stop).length = (start - stop).toNat + 1 ∧
      (daterange start stop).Chain' (fun a b => b < a) ∧
      (daterange start stop).head? = some start ∧
      (daterange start stop).getLast? = some stop) ∧
    daterange stop stop = [stop] := by
  refine ⟨fun h => ?_, fun h => ?_, ?_⟩
  · rw [daterange_eq_up start stop h]
    refine ⟨by simp, ?_, ?_, ?_⟩
    · rw [List.chain'_map]
      rw [show (List.range ((stop - start).toNat + 1)) =
        List.range ((stop - start).toNat).succ from rfl]
      rw [List.chain'_range_succ]
      intro m _
      omega
    · rw [List.head?_map, List.range_succ_eq_map]
      simp
    · rw [List.range_succ, List.map_append]
      simp only [List.map_cons, List.map_nil]
      rw [List.getLast?_concat]
      congr 1
      omega
  · rw [daterange_eq_down start stop h]
    refine ⟨by simp, ?_, ?_, ?_⟩
    · rw [List.chain'_map]
      rw [show (List.range ((start - stop).toNat + 1)) =
        List.range ((start - stop).toNat).succ from rfl]
      rw [List.chain'_range_succ]
      intro m _
      omega
    · rw [List.head?_map, List.range_succ_eq_map]
      simp
    · rw [List.range_succ, List.map_append]
      simp only [List.map_cons, List.map_nil]
      rw [List.getLast?_concat]
      congr 1
      omega
  · rw [daterange_eq_up stop stop le_rfl]
    simp [sub_self, List.range_succ, List.range_zero]

/-- Witness for C1 at concrete endpoints in both directions. -/
theorem daterange_inclusive_ordered_witness :
    (daterange 2 5).length = ((5 : Int) - 2).toNat + 1 ∧
    (daterange 5 2).length = ((5 : Int) - 2).toNat + 1 ∧
    (daterange 5 2).getLast? = some 2 ∧
    daterange 3 3 = [3] :=
  ⟨((daterange_inclusive_ordered 2 5).1 (by decide)).1,
   ((daterange_inclusive_ordered 5 2).2.1 (by decide)).1,
   ((daterange_inclusive_ordered 5 2).2.1 (by decide)).2.2.2,
   (daterange_inclusive_ordered 3 3).2.2⟩

/-- C7: the date range loop terminates for every pair of endpoints — any
amount of fuel beyond the distance between the endpoints produces the same
finite list, the iteration stops exactly upon yielding stop (stop is the
last element), and stop is yielded exactly once. -/
theorem daterange_terminating (start stop : Int) (extra : Nat) :
    daterangeAux ((stop - start).natAbs + 1 + extra) start stop
        (if start ≤ stop then 1 else -1) = daterange start stop ∧
    (daterange start stop).getLast? = some stop ∧
    (daterange start stop).count stop = 1 := by
  rcases le_or_lt start stop with h | h
  · have hn : stop = start + ((stop - start).toNat : Int) := by omega
    have habs : (stop - start).natAbs = (stop - start).toNat := by omega
    refine ⟨?_, daterange_getLast_up start stop h, ?_⟩
    · rw [daterange_eq_up start stop h, if_pos h, habs]
      conv_lhs => rw [hn]
      exact daterangeAux_up _ start _ (by omega)
    · rw [daterange_eq_up start stop h]
      have hinj : Function.Injective (fun i : Nat => start + (i : Int)) := by
        intro a b hab
        simpa using hab
      refine List.count_eq_one_of_mem ((List.nodup_range _).map hinj) ?_
      refine List.mem_map.mpr ⟨(stop - start).toNat, List.mem_range.mpr (by omega), by omega⟩
  · have hn : stop = start - ((start - stop).toNat : Int) := by omega
    have habs : (stop - start).natAbs = (start - stop).toNat := by omega
    refine ⟨?_, daterange_getLast_down start stop h, ?_⟩
    · rw [daterange_eq_down start stop h, if_neg (by omega), habs]
      conv_lhs => rw [hn]
      exact daterangeAux_down _ start _ (by omega)
    · rw [daterange_eq_down start stop h]
      have hinj : Function.Injective (fun i : Nat => start - (i : Int)) := by
        intro a b hab
        simp only at hab
        omega
      refine List.count_eq_one_of_mem ((List.nodup_range _).map hinj) ?_
      refine List.mem_map.mpr ⟨(start - stop).toNat, List.mem_range.mpr (by omega), by omega⟩

/-! ### squash: idempotence and totality (C2) -/

/-- No two adjacent whitespace characters. -/
def NoAdjSpace (a b : Char) : Prop :=
  ¬(isSpaceChar a = true ∧ isSpaceChar b = true)

/-- Equation: the collapse of the empty string. -/
theorem collapseAux_nil (b : Bool) : collapseAux b [] = [] := by
  cases b <;> rfl

/-- Equation: a whitespace head inside a run is dropped. -/
theorem collapseAux_space_t {c : Char} {l : Str} (hs : isSpaceChar c = true) :
    collapseAux true (c :: l) = collapseAux true l := by
  simp [collapseAux, hs]

/-- Equation: a whitespace head after a non-run emits one space. -/
theorem collapseAux_space_f {c : Char} {l : Str} (hs : isSpaceChar c = true) :
    collapseAux false (c :: l) = ' ' :: collapseAux true l := by
  simp [collapseAux, hs]

/-- Equation: a non-whitespace head is kept. -/
theorem collapseAux_nonspace {c : Char} {l : Str} (hs : isSpaceChar c = false) (b : Bool) :
    collapseAux b (c :: l) = c :: collapseAux false l := by
  cases b <;> simp [collapseAux, hs]

/-- Every character the whitespace collapse emits comes from its input or
is the single space it inserts. -/
theorem mem_collapseAux {c : Char} :
    ∀ (l : Str) (b : Bool), c ∈ collapseAux b l → c ∈ l ∨ c = ' ' := by
  intro l
  induction l with
  | nil => intro b h; simp [collapseAux] at h
  | cons c0 rest ih =>
    intro b h
    by_cases hs : isSpaceChar c0 = true
    · cases b with
      | true =>
        simp only [collapseAux, hs, if_true] at h
        rcases ih true h with h' | h'
        · exact Or.inl (List.mem_cons_of_mem _ h')
        · exact Or.inr h'
      | false =>
        simp only [collapseAux, hs, if_true] at h
        rcases List.mem_cons.mp h with h' | h'
        · exact Or.inr h'
        · rcases ih true h' with h'' | h''
          · exact Or.inl (List.mem_cons_of_mem _ h'')
          · exact Or.inr h''
    · simp only [collapseAux, hs] at h
      rcases List.mem_cons.mp h with h' | h'
      · exact Or.inl (h' ▸ List.mem_cons_self c0 rest)
      · rcases ih false h' with h'' | h''
        · exact Or.inl (List.mem_cons_of_mem _ h'')
        · exact Or.inr h''

/-- Every whitespace character the collapse emits is the plain space. -/
theorem collapseAux_space_eq {c : Char} :
    ∀ (l : Str) (b : Bool), c ∈ collapseAux b l → isSpaceChar c = true → c = ' ' := by
  intro l
  induction l with
  | nil => intro b h; simp [collapseAux] at h
  | cons c0 rest ih =>
    intro b h hc
    by_cases hs : isSpaceChar c0 = true
    · cases b with
      | true =>
        simp only [collapseAux, hs, if_true] at h
        exact ih true h hc
      | false =>
        simp only [collapseAux, hs, if_true] at h
        rcases List.mem_cons.mp h with h' | h'
        · exact h'
        · exact ih true h' hc
    · simp only [collapseAux, hs] at h
      rcases List.mem_cons.mp h with h' | h'
      · exact absurd (h' ▸ hc) (by simpa using hs)
      · exact ih false h' hc

/-- After a pending space the collapse never starts with whitespace. -/
theorem collapseAux_true_head :
    ∀ (l : Str) (c : Char), (collapseAux true l).head? = some c → isSpaceChar c = false := by
  intro l
  induction l with
  | nil => intro c h; simp [collapseAux] at h
  | cons c0 rest ih =>
    intro c h
    by_cases hs : isSpaceChar c0 = true
    · rw [collapseAux_space_t hs] at h
      exact ih c h
    · rw [collapseAux_nonspace (by simpa using hs) true] at h
      simp only [List.head?_cons, Option.some.injEq] at h
      subst h
      simpa using hs

/-- The collapse never emits two adjacent whitespace characters. -/
theorem collapseAux_chain :
    ∀ (l : Str) (b : Bool), (collapseAux b l).Chain' NoAdjSpace := by
  intro l
  induction l with
  | nil => intro b; rw [collapseAux_nil]; exact List.chain'_nil
  | cons c0 rest ih =>
    intro b
    by_cases hs : isSpaceChar c0 = true
    · cases b with
      | true => rw [collapseAux_space_t hs]; exact ih true
      | false =>
        rw [collapseAux_space_f hs, List.chain'_cons']
        refine ⟨?_, ih true⟩
        intro y hy hcon
        have := collapseAux_true_head rest y hy
        rw [this] at hcon
        exact Bool.false_ne_true hcon.2
    · rw [collapseAux_nonspace (by simpa using hs) b, List.chain'_cons']
      refine ⟨?_, ih false⟩
      intro y _ hcon
      exact hs hcon.1

/-- A string whose whitespace is plain single non-adjacent spaces is a
fixed point of the collapse, provided no pending space precedes it. -/
theorem collapseAux_fixed :
    ∀ (l : Str) (b : Bool),
      (∀ c ∈ l, isSpaceChar c = true → c = ' ') →
      l.Chain' NoAdjSpace →
      (b = true → ∀ c, l.head? = some c → isSpaceChar c = false) →
      collapseAux b l = l := by
  intro l
  induction l with
  | nil => intro b _ _ _; rw [collapseAux_nil]
  | cons c0 rest ih =>
    intro b hmem hchain hhead
    by_cases hs : isSpaceChar c0 = true
    · have hc0 : c0 = ' ' := hmem c0 (List.mem_cons_self _ _) hs
      cases b with
      | true =>
        have := hhead rfl c0 (by simp)
        rw [hs] at this
        exact absurd this (by simp)
      | false =>
        rw [collapseAux_space_f hs]
        have hrest : collapseAux true rest = rest := by
          refine ih true (fun c hc h => hmem c (List.mem_cons_of_mem _ hc) h)
            (List.chain'_cons'.mp hchain).2 ?_
          intro _ c hc
          have hnadj := (List.chain'_cons'.mp hchain).1 c hc
          by_contra hcs
          exact hnadj ⟨hs, by simpa using hcs⟩
        rw [hrest, hc0]
    · rw [collapseAux_nonspace (by simpa using hs) b]
      rw [ih false (fun c hc h => hmem c (List.mem_cons_of_mem _ hc) h)
        (List.chain'_cons'.mp hchain).2 (by intro h; exact absurd h (by simp))]

/-- Characters of the stripped string come from the original. -/
theorem mem_stripStr {c : Char} {s : Str} (h : c ∈ stripStr s) : c ∈ s := by
  unfold stripStr at h
  rw [List.mem_reverse] at h
  have h1 := (List.dropWhile_sublist isSpaceChar).subset h
  rw [List.mem_reverse] at h1
  exact (List.dropWhile_sublist isSpaceChar).subset h1

/-- The head of a dropWhile result never satisfies the dropped
predicate. -/
theorem head?_dropWhile {p : Char → Bool} :
    ∀ (s : Str) (c : Char), (s.dropWhile p).head? = some c → p c = false := by
  intro s
  induction s with
  | nil => intro c h; simp at h
  | cons c0 rest ih =>
    intro c h
    rw [List.dropWhile_cons] at h
    by_cases h0 : p c0 = true
    · rw [if_pos h0] at h
      exact ih c h
    · rw [if_neg h0] at h
      simp only [List.head?_cons, Option.some.injEq] at h
      subst h
      simpa using h0

/-- A list whose head does not satisfy the predicate is a fixed point of
dropWhile. -/
theorem dropWhile_eq_self_of_head {p : Char → Bool} :
    ∀ (s : Str), (∀ c, s.head? = some c → p c = false) → s.dropWhile p = s := by
  intro s h
  cases s with
  | nil => rfl
  | cons c0 rest =>
    rw [List.dropWhile_cons, if_neg]
    rw [h c0 (by simp)]
    simp

/-- Stripping preserves the non-adjacent-whitespace chain. -/
theorem stripStr_chain {s : Str} (h : s.Chain' NoAdjSpace) :
    (stripStr s).Chain' NoAdjSpace := by
  unfold stripStr
  have hsymm : ∀ a b : Char, NoAdjSpace a b → NoAdjSpace b a := by
    intro a b hab hcon
    exact hab ⟨hcon.2, hcon.1⟩
  have h1 : (s.dropWhile isSpaceChar).Chain' NoAdjSpace :=
    h.suffix (List.dropWhile_suffix isSpaceChar)
  have h2 : ((s.dropWhile isSpaceChar).reverse).Chain' NoAdjSpace := by
    rw [List.chain'_reverse]
    exact h1.imp hsymm
  have h3 : (((s.dropWhile isSpaceChar).reverse).dropWhile isSpaceChar).Chain' NoAdjSpace :=
    h2.suffix (List.dropWhile_suffix isSpaceChar)
  rw [List.chain'_reverse]
  exact h3.imp hsymm

/-- The stripped string neither starts nor ends with whitespace. -/
theorem stripStr_ends (s : Str) :
    (∀ c, (stripStr s).head? = some c → isSpaceChar c = false) ∧
    (∀ c, (stripStr s).getLast? = some c → isSpaceChar c = false) := by
  constructor
  · intro c h
    unfold stripStr at h
    rw [List.head?_reverse] at h
    rcases hsuf : (s.dropWhile isSpaceChar).reverse.dropWhile isSpaceChar with _ | ⟨a, t⟩
    · rw [hsuf] at h; simp at h
    · obtain ⟨u, hu⟩ := List.dropWhile_suffix
        (l := (s.dropWhile isSpaceChar).reverse) isSpaceChar
      rw [hsuf] at h hu
      have hsome : (a :: t).getLast?.isSome := by
        rw [List.getLast?_isSome]
        simp
      have hlast : (u ++ a :: t).getLast? = (a :: t).getLast? := by
        rw [List.getLast?_append, Option.or_of_isSome hsome]
      rw [hu, List.getLast?_reverse] at hlast
      exact head?_dropWhile s c (hlast.trans h)
  · intro c h
    unfold stripStr at h
    rw [List.getLast?_reverse] at h
    exact head?_dropWhile _ c h

/-- A string that neither starts nor ends with whitespace is a fixed
point of stripping. -/
theorem stripStr_fixed (s : Str)
    (hh : ∀ c, s.head? = some c → isSpaceChar c = false)
    (hl : ∀ c, s.getLast? = some c → isSpaceChar c = false) :
    stripStr s = s := by
  unfold stripStr
  rw [dropWhile_eq_self_of_head s hh]
  rw [dropWhile_eq_self_of_head s.reverse (by
    intro c hc
    rw [List.head?_reverse] at hc
    exact hl c hc)]
  exact List.reverse_reverse s

/-- A list of characters that each decompose to themselves is a fixed
point of the decomposition pass. -/
theorem flatMap_eq_self {nfkd : Char → List Char} :
    ∀ (l : Str), (∀ c ∈ l, nfkd c = [c]) → l.flatMap nfkd = l := by
  intro l
  induction l with
  | nil => intro _; rfl
  | cons c0 rest ih =>
    intro h
    rw [List.flatMap_cons, h c0 (List.mem_cons_self _ _),
      ih (fun c hc => h c (List.mem_cons_of_mem _ hc))]
    rfl

/-- Every character squash emits is ASCII. -/
theorem squash_all_ascii (nfkd : Char → List Char) (x : Str) :
    ∀ c ∈ squash nfkd x, isAsciiChar c = true := by
  intro c hc
  unfold squash collapseWs at hc
  have hc2 := mem_stripStr hc
  rcases mem_collapseAux _ _ hc2 with h | h
  · exact List.of_mem_filter h
  · subst h; rfl

/-- Every whitespace character squash emits is the plain space. -/
theorem squash_space_eq (nfkd : Char → List Char) (x : Str) :
    ∀ c ∈ squash nfkd x, isSpaceChar c = true → c = ' ' := by
  intro c hc hs
  unfold squash collapseWs at hc
  exact collapseAux_space_eq _ _ (mem_stripStr hc) hs

/-- The squash output carries no two adjacent whitespace characters. -/
theorem squash_chain (nfkd : Char → List Char) (x : Str) :
    (squash nfkd x).Chain' NoAdjSpace := by
  unfold squash collapseWs
  exact stripStr_chain (collapseAux_chain _ _)

/-- C2: squash is idempotent for every decomposition that fixes ASCII
characters, total by construction, maps the empty string to the empty
string, and maps any input with no ASCII-representable characters to the
empty string. -/
theorem squash_idempotent_total (nfkd : Char → List Char)
    (h : ∀ c : Char, c.toNat < 128 → nfkd c = [c]) (x : Str) :
    squash nfkd (squash nfkd x) = squash nfkd x ∧
    squash nfkd [] = [] ∧
    ((∀ c ∈ x.flatMap nfkd, isAsciiChar c = false) → squash nfkd x = []) := by
  refine ⟨?_, rfl, ?_⟩
  · have hascii := squash_all_ascii nfkd x
    have h1 : (squash nfkd x).flatMap nfkd = squash nfkd x :=
      flatMap_eq_self _ (fun c hc => h c (by
        have := hascii c hc
        simpa [isAsciiChar] using this))
    have h2 : asciiIgnore (squash nfkd x) = squash nfkd x := by
      unfold asciiIgnore
      exact List.filter_eq_self.mpr hascii
    have h3 : collapseWs (squash nfkd x) = squash nfkd x := by
      unfold collapseWs
      exact collapseAux_fixed _ false (squash_space_eq nfkd x) (squash_chain nfkd x)
        (by intro hcon; exact absurd hcon (by simp))
    have h4 : stripStr (squash nfkd x) = squash nfkd x := by
      refine stripStr_fixed _ ?_ ?_
      · intro c hc
        unfold squash at hc
        exact (stripStr_ends _).1 c hc
      · intro c hc
        unfold squash at hc
        exact (stripStr_ends _).2 c hc
    calc squash nfkd (squash nfkd x)
        = stripStr (collapseWs (asciiIgnore ((squash nfkd x).flatMap nfkd))) := rfl
      _ = stripStr (collapseWs (asciiIgnore (squash nfkd x))) := by rw [h1]
      _ = stripStr (collapseWs (squash nfkd x)) := by rw [h2]
      _ = stripStr (squash nfkd x) := by rw [h3]
      _ = squash nfkd x := h4
  · intro hall
    unfold squash
    have : asciiIgnore (x.flatMap nfkd) = [] := by
      unfold asciiIgnore
      rw [List.filter_eq_nil_iff]
      intro a ha
      rw [hall a ha]
      simp
    rw [this]
    rfl

/-- Witness for C2: idempotence at a concrete mixed string under the
identity decomposition, and the empty result on an input with no ASCII
characters. -/
theorem squash_idempotent_total_witness :
    squash (fun c => [c]) (squash (fun c => [c]) "  a  b ".toList) =
      squash (fun c => [c]) "  a  b ".toList ∧
    squash (fun c => [c]) "äöü".toList = [] :=
  ⟨(squash_idempotent_total (fun c => [c]) (fun _ _ => rfl) "  a  b ".toList).1,
   (squash_idempotent_total (fun c => [c]) (fun _ _ => rfl) "äöü".toList).2.2
     (by decide)⟩

/-! ### Image resolution and the source-set IndexError (C3, C4) -/

/-- C3: on a card whose source-set attribute is non-empty but holds no URL
token in its first entry, the resolution of the code raises IndexError
instead of falling through to the background-image rule, which by the
resolution order of the spec would succeed with the background URL. -/
theorem image_resolution_srcset_indexerror :
    resolveImgUrl cardSrcsetCrash = Except.error () ∧
    specResolveImageUrl cardSrcsetCrash = some "/pic.jpg".toList := by
  constructor <;> rfl

/-- C4: the IndexError of the source-set chain escapes the per-card
processing and aborts the whole batch: scraping a day whose page holds one
such malformed card yields an error for the entire run rather than
skipping the card. -/
theorem card_extraction_exception_escapes :
    scrapeDay envSrcsetCrash 0 ⟨[], [], []⟩ = Except.error () ∧
    scrapeDays envSrcsetCrash (daterange 0 1) ⟨[], [], []⟩ = Except.error () := by
  constructor <;> rfl

/-! ### Boilerplate-only cards (C9) -/

/-- C9: a card whose description lines all match the boilerplate prefix
pattern is skipped — the state, and in particular the row list, is
returned unchanged, whatever the other fields of the card hold. -/
theorem boilerplate_only_card_skipped (env : Env) (dayIso mensa : Str)
    (st : ScrapeState) (card : Card) (pLines : List Str)
    (hp : card.pTag = some pLines)
    (hb : ∀ ln ∈ pLines, matchesBoilerplate ln = true) :
    processCard env dayIso mensa st card = Except.ok st := by
  have hl : descriptionLines pLines = [] := by
    unfold descriptionLines
    rw [List.filter_eq_nil_iff.mpr ?_]
    · rfl
    · intro a ha
      simp [hb a ha]
  unfold processCard
  rw [hp]
  simp [hl]

/-- Witness for C9: a concrete card with only boilerplate lines leaves a
concrete state untouched. -/
theorem boilerplate_only_card_skipped_witness :
    processCard envExample "2024-01-01".toList "Mensa Academica".toList
      ⟨[], [], []⟩ cardBoilerplateOnly = Except.ok ⟨[], [], []⟩ :=
  boilerplate_only_card_skipped envExample _ _ _ cardBoilerplateOnly _ rfl (by decide)

/-! ### The worked example (C8) -/

/-- On all-ASCII input any decomposition fixing ASCII makes squash the
plain collapse and strip. -/
theorem squash_of_ascii (nfkd : Char → List Char)
    (h : ∀ c : Char, c.toNat < 128 → nfkd c = [c]) (l : Str)
    (hl : ∀ c ∈ l, isAsciiChar c = true) :
    squash nfkd l = stripStr (collapseWs l) := by
  unfold squash
  rw [flatMap_eq_self l (fun c hc => h c (by simpa [isAsciiChar] using hl c hc))]
  rw [show asciiIgnore l = l from List.filter_eq_self.mpr hl]

/-- C8: on a page with one heading Mensa Academica over one card with
description lines Pasta Bolognese and Beilagensalat optional, badge Vegan,
label Hauptgericht and image source /img/pasta.jpg, the pipeline emits
exactly the expected seven-field row, with the image stored under the
output directory, the ISO day and the slugged mensa and type. -/
theorem example_pipeline_row (nfkd : Char → List Char) (net : Str → Option Unit)
    (iso : Int → Str) (outDir : Str) (day : Int)
    (hn : ∀ c : Char, c.toNat < 128 → nfkd c = [c])
    (hnet : net "https://mensa.fachschaft.tf/img/pasta.jpg".toList = some ()) :
    scrapeDay ⟨nfkd, net, fun _ => some pageExample, iso, outDir⟩ day ⟨[], [], []⟩ =
      Except.ok ⟨[outDir ++ '/' :: iso day ++ '/' :: "mensa-academica_hauptgericht.jpg".toList],
        ["https://mensa.fachschaft.tf/img/pasta.jpg".toList],
        [["Pasta Bolognese".toList, "no".toList, "no".toList, "Hauptgericht".toList,
          "Vegan".toList, "Mensa Academica".toList,
          outDir ++ '/' :: iso day ++ '/' :: "mensa-academica_hauptgericht.jpg".toList]]⟩ := by
  have hm : mensaOf nfkd "Mensa Academica".toList = "Mensa Academica".toList := by
    unfold mensaOf
    rw [squash_of_ascii nfkd hn _ (by decide)]
    decide
  have hd : descriptionOf nfkd ["Pasta Bolognese".toList] = "Pasta Bolognese".toList := by
    unfold descriptionOf
    rw [squash_of_ascii nfkd hn _ (by decide)]
    decide
  have hlines : descriptionLines
      ["Pasta Bolognese".toList, "Beilagensalat optional".toList] =
      ["Pasta Bolognese".toList] := by decide
  have hw : hasWordMensa "Mensa Academica".toList = true := by decide
  have hres : resolveImgUrl cardExample = Except.ok (some "/img/pasta.jpg".toList) := rfl
  have hjoin : urljoinBase "/img/pasta.jpg".toList =
      "https://mensa.fachschaft.tf/img/pasta.jpg".toList := by decide
  have ht : dishTypeOf cardExample = "Hauptgericht".toList := by decide
  have hdiet : dietOf cardExample = "Vegan".toList := by decide
  have hfname : slug "Mensa Academica".toList ++ '_' :: slug "Hauptgericht".toList ++
      extOf "https://mensa.fachschaft.tf/img/pasta.jpg".toList =
      "mensa-academica_hauptgericht.jpg".toList := by decide
  have hptag : cardExample.pTag =
      some ["Pasta Bolognese".toList, "Beilagensalat optional".toList] := rfl
  simp only [scrapeDay, processHeadings, processHeading, processCards, processCard,
    pageExample, hw, if_true, hptag, hm, hlines, hd, hres, hjoin, ht, hdiet,
    cardPath, rowOf, destPath, hfname, List.isEmpty_cons, Bool.false_eq_true, if_false,
    List.not_mem_nil, hnet, List.nil_append]

/-- Witness for C8 at a concrete environment. -/
theorem example_pipeline_row_witness :
    scrapeDay envExample 0 ⟨[], [], []⟩ =
      Except.ok ⟨["images".toList ++ '/' :: "2024-01-01".toList ++
          '/' :: "mensa-academica_hauptgericht.jpg".toList],
        ["https://mensa.fachschaft.tf/img/pasta.jpg".toList],
        [["Pasta Bolognese".toList, "no".toList, "no".toList, "Hauptgericht".toList,
          "Vegan".toList, "Mensa Academica".toList,
          "images".toList ++ '/' :: "2024-01-01".toList ++
            '/' :: "mensa-academica_hauptgericht.jpg".toList]]⟩ :=
  example_pipeline_row (fun c => [c]) (fun _ => some ())
    (fun _ => "2024-01-01".toList) "images".toList 0 (fun _ _ => rfl) rfl

/-! ### Per-card case analysis and processing order (C5, C6, C10) -/

/-- Full case analysis of a successful card step: either the card was
skipped and the state is untouched, or the image resolved, the
description survived, and the row was appended — with the image either
already on disk (no fetch) or freshly fetched. -/
theorem processCard_cases (env : Env) (dayIso mensa : Str) (st : ScrapeState)
    (card : Card) (st' : ScrapeState)
    (h : processCard env dayIso mensa st card = Except.ok st') :
    st' = st ∨
    ∃ pLines u, card.pTag = some pLines ∧
      (descriptionLines pLines).isEmpty = false ∧
      resolveImgUrl card = Except.ok (some u) ∧
      ((cardPath env dayIso mensa card u ∈ st.fs ∧
        st' = { st with rows :=
          st.rows ++ [rowOf env mensa pLines card (cardPath env dayIso mensa card u)] }) ∨
       (cardPath env dayIso mensa card u ∉ st.fs ∧ env.net (urljoinBase u) = some () ∧
        st' = ⟨cardPath env dayIso mensa card u :: st.fs,
               st.fetches ++ [urljoinBase u],
               st.rows ++ [rowOf env mensa pLines card (cardPath env dayIso mensa card u)]⟩)) := by
  simp only [processCard] at h
  split at h
  · exact Or.inl (Except.ok.inj h).symm
  · rename_i pLines hp
    split at h
    · exact Or.inl (Except.ok.inj h).symm
    · rename_i hne
      split at h
      · exact absurd h (by simp)
      · exact Or.inl (Except.ok.inj h).symm
      · rename_i u hres
        split at h
        · rename_i hmem
          exact Or.inr ⟨pLines, u, hp, by simpa using hne, hres,
            Or.inl ⟨hmem, (Except.ok.inj h).symm⟩⟩
        · rename_i hmem
          split at h
          · rename_i v hnet
            exact Or.inr ⟨pLines, u, hp, by simpa using hne, hres,
              Or.inr ⟨hmem, by rw [hnet], (Except.ok.inj h).symm⟩⟩
          · exact Or.inl (Except.ok.inj h).symm

/-- A successful card step extends the row list by at most one row and
never shrinks the file set or the fetch log. -/
theorem processCard_extends (env : Env) (dayIso mensa : Str) (st : ScrapeState)
    (card : Card) (st' : ScrapeState)
    (h : processCard env dayIso mensa st card = Except.ok st') :
    (∃ d, st'.rows = st.rows ++ d ∧ d.length ≤ 1) ∧
    st.fs ⊆ st'.fs ∧ (∃ f, st'.fetches = st.fetches ++ f) := by
  rcases processCard_cases env dayIso mensa st card st' h with h1 | ⟨pL, u, _, _, _, h1 | h1⟩
  · subst h1
    exact ⟨⟨[], by simp, by simp⟩, fun a ha => ha, ⟨[], by simp⟩⟩
  · rw [h1.2]
    exact ⟨⟨_, rfl, by simp⟩, fun a ha => ha, ⟨[], by simp⟩⟩
  · rw [h1.2.2]
    exact ⟨⟨_, rfl, by simp⟩, fun a ha => List.mem_cons_of_mem _ ha, ⟨_, rfl⟩⟩

/-- A successful card list extends the row list. -/
theorem processCards_extends (env : Env) (dayIso mensa : Str) :
    ∀ (cards : List Card) (st st' : ScrapeState),
      processCards env dayIso mensa cards st = Except.ok st' →
      (∃ d, st'.rows = st.rows ++ d) ∧ st.fs ⊆ st'.fs := by
  intro cards
  induction cards with
  | nil =>
    intro st st' h
    simp only [processCards] at h
    rw [← Except.ok.inj h]
    exact ⟨⟨[], by simp⟩, fun a ha => ha⟩
  | cons c cs ih =>
    intro st st' h
    simp only [processCards] at h
    split at h
    · exact absurd h (by simp)
    · rename_i st2 hc
      obtain ⟨⟨d2, hd2⟩, hfs2⟩ := ih st2 st' h
      obtain ⟨⟨d1, hd1, _⟩, hfs1, _⟩ := processCard_extends env dayIso mensa st c st2 hc
      exact ⟨⟨d1 ++ d2, by rw [hd2, hd1, List.append_assoc]⟩, hfs1.trans hfs2⟩

/-- A successful heading step extends the row list. -/
theorem processHeading_extends (env : Env) (dayIso : Str) (st : ScrapeState)
    (hd : Heading) (st' : ScrapeState)
    (h : processHeading env dayIso st hd = Except.ok st') :
    (∃ d, st'.rows = st.rows ++ d) ∧ st.fs ⊆ st'.fs := by
  simp only [processHeading] at h
  split at h
  · split at h
    · rw [← Except.ok.inj h]
      exact ⟨⟨[], by simp⟩, fun a ha => ha⟩
    · exact processCards_extends env dayIso _ _ st st' h
  · rw [← Except.ok.inj h]
    exact ⟨⟨[], by simp⟩, fun a ha => ha⟩

/-- A successful heading list extends the row list. -/
theorem processHeadings_extends (env : Env) (dayIso : Str) :
    ∀ (hs : List Heading) (st st' : ScrapeState),
      processHeadings env dayIso hs st = Except.ok st' →
      (∃ d, st'.rows = st.rows ++ d) ∧ st.fs ⊆ st'.fs := by
  intro hs
  induction hs with
  | nil =>
    intro st st' h
    simp only [processHeadings] at h
    rw [← Except.ok.inj h]
    exact ⟨⟨[], by simp⟩, fun a ha => ha⟩
  | cons hd tl ih =>
    intro st st' h
    simp only [processHeadings] at h
    split at h
    · exact absurd h (by simp)
    · rename_i st2 hh
      obtain ⟨⟨d2, hd2⟩, hfs2⟩ := ih st2 st' h
      obtain ⟨⟨d1, hd1⟩, hfs1⟩ := processHeading_extends env dayIso st hd st2 hh
      exact ⟨⟨d1 ++ d2, by rw [hd2, hd1, List.append_assoc]⟩, hfs1.trans hfs2⟩

/-- A successful day extends the row list. -/
theorem scrapeDay_extends (env : Env) (day : Int) (st st' : ScrapeState)
    (h : scrapeDay env day st = Except.ok st') :
    (∃ d, st'.rows = st.rows ++ d) ∧ st.fs ⊆ st'.fs := by
  simp only [scrapeDay] at h
  split at h
  · rw [← Except.ok.inj h]
    exact ⟨⟨[], by simp⟩, fun a ha => ha⟩
  · exact processHeadings_extends env _ _ st st' h

/-- The rows of a successful card list are exactly the per-card blocks in
card order, one block per card, each of at most one row. -/
theorem processCards_deltas (env : Env) (dayIso mensa : Str) :
    ∀ (cards : List Card) (st st' : ScrapeState),
      processCards env dayIso mensa cards st = Except.ok st' →
      st'.rows = st.rows ++ (cardDeltas env dayIso mensa cards st).flatten ∧
      (cardDeltas env dayIso mensa cards st).length = cards.length ∧
      ∀ d ∈ cardDeltas env dayIso mensa cards st, d.length ≤ 1 := by
  intro cards
  induction cards with
  | nil =>
    intro st st' h
    simp only [processCards] at h
    rw [← Except.ok.inj h]
    simp [cardDeltas]
  | cons c cs ih =>
    intro st st' h
    simp only [processCards] at h
    split at h
    · exact absurd h (by simp)
    · rename_i st2 hc
      obtain ⟨hrows, hlen, hsz⟩ := ih st2 st' h
      obtain ⟨⟨d1, hd1, hd1len⟩, _, _⟩ := processCard_extends env dayIso mensa st c st2 hc
      have hdrop : st2.rows.drop st.rows.length = d1 := by
        rw [hd1, List.drop_left]
      simp only [cardDeltas, hc]
      refine ⟨?_, by simp [hlen], ?_⟩
      · rw [List.flatten_cons, hdrop, hrows, hd1, List.append_assoc]
      · intro d hd
        rcases List.mem_cons.mp hd with rfl | hd
        · rw [hdrop]; exact hd1len
        · exact hsz d hd

/-- The rows of a successful heading list are exactly the per-heading
blocks in document order, one block per heading. -/
theorem processHeadings_deltas (env : Env) (dayIso : Str) :
    ∀ (hs : List Heading) (st st' : ScrapeState),
      processHeadings env dayIso hs st = Except.ok st' →
      st'.rows = st.rows ++ (headingDeltas env dayIso hs st).flatten ∧
      (headingDeltas env dayIso hs st).length = hs.length := by
  intro hs
  induction hs with
  | nil =>
    intro st st' h
    simp only [processHeadings] at h
    rw [← Except.ok.inj h]
    simp [headingDeltas]
  | cons hd tl ih =>
    intro st st' h
    simp only [processHeadings] at h
    split at h
    · exact absurd h (by simp)
    · rename_i st2 hh
      obtain ⟨hrows, hlen⟩ := ih st2 st' h
      obtain ⟨⟨d1, hd1⟩, _⟩ := processHeading_extends env dayIso st hd st2 hh
      have hdrop : st2.rows.drop st.rows.length = d1 := by
        rw [hd1, List.drop_left]
      simp only [headingDeltas, hh]
      refine ⟨?_, by simp [hlen]⟩
      rw [List.flatten_cons, hdrop, hrows, hd1, List.append_assoc]

/-- The rows of a successful multi-day run are exactly the per-day blocks
in the order the day list provides, one block per day. -/
theorem scrapeDays_deltas (env : Env) :
    ∀ (days : List Int) (st st' : ScrapeState),
      scrapeDays env days st = Except.ok st' →
      st'.rows = st.rows ++ (dayDeltas env days st).flatten ∧
      (dayDeltas env days st).length = days.length := by
  intro days
  induction days with
  | nil =>
    intro st st' h
    simp only [scrapeDays] at h
    rw [← Except.ok.inj h]
    simp [dayDeltas]
  | cons d ds ih =>
    intro st st' h
    simp only [scrapeDays] at h
    split at h
    · exact absurd h (by simp)
    · rename_i st2 hday
      obtain ⟨hrows, hlen⟩ := ih st2 st' h
      obtain ⟨⟨d1, hd1⟩, _⟩ := scrapeDay_extends env d st st2 hday
      have hdrop : st2.rows.drop st.rows.length = d1 := by
        rw [hd1, List.drop_left]
      simp only [dayDeltas, hday]
      refine ⟨?_, by simp [hlen]⟩
      rw [List.flatten_cons, hdrop, hrows, hd1, List.append_assoc]

/-- C10: the accumulated row list is grouped into consecutive blocks, one
per day in exactly the order the date range yields the days; within a
day, one block per heading in document order; within a heading, one block
of at most one row per card in document order; and the CSV writer puts
the header first and appends the rows unchanged and unreordered. -/
theorem rows_processing_order (env : Env) (start stop : Int) (st0 st1 : ScrapeState)
    (h : scrapeDays env (daterange start stop) st0 = Except.ok st1) :
    (st1.rows = st0.rows ++ (dayDeltas env (daterange start stop) st0).flatten ∧
     (dayDeltas env (daterange start stop) st0).length = (daterange start stop).length) ∧
    (∀ (day : Int) (page : Page) (st st' : ScrapeState), env.pages day = some page →
      scrapeDay env day st = Except.ok st' →
      st'.rows = st.rows ++ (headingDeltas env (env.iso day) page.headings st).flatten ∧
      (headingDeltas env (env.iso day) page.headings st).length = page.headings.length) ∧
    (∀ (dayIso mensa : Str) (cards : List Card) (st st' : ScrapeState),
      processCards env dayIso mensa cards st = Except.ok st' →
      st'.rows = st.rows ++ (cardDeltas env dayIso mensa cards st).flatten ∧
      (cardDeltas env dayIso mensa cards st).length = cards.length ∧
      ∀ d ∈ cardDeltas env dayIso mensa cards st, d.length ≤ 1) ∧
    save_csv st1.rows = headerRow :: st1.rows := by
  refine ⟨scrapeDays_deltas env _ st0 st1 h, ?_, ?_, rfl⟩
  · intro day page st st' hp hd
    simp only [scrapeDay, hp] at hd
    exact processHeadings_deltas env (env.iso day) page.headings st st' hd
  · intro dayIso mensa cards st st' hc
    exact processCards_deltas env dayIso mensa cards st st' hc

/-- Witness for C10 on the one-day worked example run. -/
theorem rows_processing_order_witness :
    stateExample.rows = ([] : List (List Str)) ++
      (dayDeltas envExample (daterange 0 0) ⟨[], [], []⟩).flatten ∧
    (dayDeltas envExample (daterange 0 0) ⟨[], [], []⟩).length =
      (daterange 0 0).length ∧
    save_csv stateExample.rows = headerRow :: stateExample.rows :=
  ⟨(rows_processing_order envExample 0 0 ⟨[], [], []⟩ stateExample (by rfl)).1.1,
   (rows_processing_order envExample 0 0 ⟨[], [], []⟩ stateExample (by rfl)).1.2,
   (rows_processing_order envExample 0 0 ⟨[], [], []⟩ stateExample (by rfl)).2.2.2⟩

/-! ### CSV row shape and separator freedom (C6) -/

/-- Characters of a single-character replacement output: the replacement
itself, or an original character different from the replaced one. -/
theorem mem_replaceChar {a b c : Char} {s : Str} (h : c ∈ replaceChar a b s) :
    c = b ∨ (c ∈ s ∧ c ≠ a) := by
  unfold replaceChar at h
  obtain ⟨x, hx, hxe⟩ := List.mem_map.mp h
  by_cases hxa : x = a
  · subst hxa
    rw [if_pos rfl] at hxe
    exact Or.inl hxe.symm
  · rw [if_neg hxa] at hxe
    subst hxe
    exact Or.inr ⟨hx, hxa⟩

/-- The comma-then-semicolon replacement pair leaves no comma or
semicolon. -/
theorem sepFree_pair (s : Str) :
    sepFree (replaceChar ';' ' ' (replaceChar ',' ' ' s)) = true := by
  unfold sepFree
  rw [decide_eq_true_eq]
  constructor
  · intro hmem
    rcases mem_replaceChar hmem with h | ⟨hin, _⟩
    · exact absurd h (by decide)
    · rcases mem_replaceChar hin with h | ⟨_, hne⟩
      · exact absurd h (by decide)
      · exact hne rfl
  · intro hmem
    rcases mem_replaceChar hmem with h | ⟨_, hne⟩
    · exact absurd h (by decide)
    · exact hne rfl

/-- Characters of the squash output: the inserted space or a character of
the decomposition of some input character. -/
theorem mem_squash {nfkd : Char → List Char} {c : Char} {s : Str}
    (h : c ∈ squash nfkd s) : c = ' ' ∨ ∃ c0 ∈ s, c ∈ nfkd c0 := by
  unfold squash collapseWs at h
  have h2 := mem_stripStr h
  rcases mem_collapseAux _ _ h2 with h3 | h3
  · unfold asciiIgnore at h3
    obtain ⟨c0, hc0, hcc⟩ := List.mem_flatMap.mp (List.mem_filter.mp h3).1
    exact Or.inr ⟨c0, hc0, hcc⟩
  · exact Or.inl h3

/-- squash preserves separator freedom whenever the decomposition maps
separator-free characters to separator-free strings. -/
theorem squash_sepFree {nfkd : Char → List Char}
    (hn : ∀ c : Char, c ≠ ',' → c ≠ ';' → ∀ d ∈ nfkd c, d ≠ ',' ∧ d ≠ ';')
    (s : Str) (hs : sepFree s = true) : sepFree (squash nfkd s) = true := by
  unfold sepFree at hs ⊢
  rw [decide_eq_true_eq] at hs ⊢
  obtain ⟨hs1, hs2⟩ := hs
  constructor
  · intro hmem
    rcases mem_squash hmem with h | ⟨c0, hc0, hcc⟩
    · exact absurd h (by decide)
    · exact (hn c0 (fun he => hs1 (he ▸ hc0)) (fun he => hs2 (he ▸ hc0)) ',' hcc).1 rfl
  · intro hmem
    rcases mem_squash hmem with h | ⟨c0, hc0, hcc⟩
    · exact absurd h (by decide)
    · exact (hn c0 (fun he => hs1 (he ▸ hc0)) (fun he => hs2 (he ▸ hc0)) ';' hcc).2 rfl

/-- Every assembled row is well formed when the mensa argument carries no
separator and the decomposition preserves separator freedom. -/
theorem rowOk_rowOf (env : Env) (mensa : Str) (pLines : List Str) (card : Card)
    (fpath : Str)
    (hn : ∀ c : Char, c ≠ ',' → c ≠ ';' → ∀ d ∈ env.nfkd c, d ≠ ',' ∧ d ≠ ';')
    (hm : sepFree mensa = true) :
    rowOk (rowOf env mensa pLines card fpath) = true := by
  unfold rowOk rowOf
  simp only [List.getD_cons_zero, List.getD_cons_succ, List.length_cons,
    List.length_nil, Bool.and_eq_true, decide_eq_true_eq]
  refine ⟨⟨⟨⟨trivial, ?_⟩, ?_⟩, ?_⟩, hm⟩
  · unfold descriptionOf
    exact squash_sepFree hn _ (sepFree_pair _)
  · unfold dishTypeOf
    exact sepFree_pair _
  · unfold dietOf
    exact sepFree_pair _

/-- A successful card step preserves row well-formedness. -/
theorem processCard_rowOk (env : Env) (dayIso mensa : Str) (st : ScrapeState)
    (card : Card) (st' : ScrapeState)
    (hn : ∀ c : Char, c ≠ ',' → c ≠ ';' → ∀ d ∈ env.nfkd c, d ≠ ',' ∧ d ≠ ';')
    (hm : sepFree mensa = true)
    (hall : st.rows.all rowOk = true)
    (h : processCard env dayIso mensa st card = Except.ok st') :
    st'.rows.all rowOk = true := by
  rcases processCard_cases env dayIso mensa st card st' h with
    rfl | ⟨pL, u, _, _, _, hc | hc⟩
  · exact hall
  · rw [hc.2]
    simp only [List.all_append, Bool.and_eq_true]
    exact ⟨hall, by simp [rowOk_rowOf env mensa pL card _ hn hm]⟩
  · rw [hc.2.2]
    simp only [List.all_append, Bool.and_eq_true]
    exact ⟨hall, by simp [rowOk_rowOf env mensa pL card _ hn hm]⟩

/-- A successful card list preserves row well-formedness. -/
theorem processCards_rowOk (env : Env) (dayIso mensa : Str)
    (hn : ∀ c : Char, c ≠ ',' → c ≠ ';' → ∀ d ∈ env.nfkd c, d ≠ ',' ∧ d ≠ ';')
    (hm : sepFree mensa = true) :
    ∀ (cards : List Card) (st st' : ScrapeState),
      st.rows.all rowOk = true →
      processCards env dayIso mensa cards st = Except.ok st' →
      st'.rows.all rowOk = true := by
  intro cards
  induction cards with
  | nil =>
    intro st st' hall h
    simp only [processCards] at h
    rw [← Except.ok.inj h]
    exact hall
  | cons c cs ih =>
    intro st st' hall h
    simp only [processCards] at h
    split at h
    · exact absurd h (by simp)
    · rename_i st2 hc
      exact ih st2 st' (processCard_rowOk env dayIso mensa st c st2 hn hm hall hc) h

/-- A successful heading preserves row well-formedness. -/
theorem processHeading_rowOk (env : Env) (dayIso : Str) (st : ScrapeState)
    (hd : Heading) (st' : ScrapeState)
    (hn : ∀ c : Char, c ≠ ',' → c ≠ ';' → ∀ d ∈ env.nfkd c, d ≠ ',' ∧ d ≠ ';')
    (hall : st.rows.all rowOk = true)
    (h : processHeading env dayIso st hd = Except.ok st') :
    st'.rows.all rowOk = true := by
  simp only [processHeading] at h
  split at h
  · split at h
    · rw [← Except.ok.inj h]
      exact hall
    · refine processCards_rowOk env dayIso _ hn ?_ _ st st' hall h
      unfold mensaOf
      exact sepFree_pair _
  · rw [← Except.ok.inj h]
    exact hall

/-- A successful heading list preserves row well-formedness. -/
theorem processHeadings_rowOk (env : Env) (dayIso : Str)
    (hn : ∀ c : Char, c ≠ ',' → c ≠ ';' → ∀ d ∈ env.nfkd c, d ≠ ',' ∧ d ≠ ';') :
    ∀ (hs : List Heading) (st st' : ScrapeState),
      st.rows.all rowOk = true →
      processHeadings env dayIso hs st = Except.ok st' →
      st'.rows.all rowOk = true := by
  intro hs
  induction hs with
  | nil =>
    intro st st' hall h
    simp only [processHeadings] at h
    rw [← Except.ok.inj h]
    exact hall
  | cons hd tl ih =>
    intro st st' hall h
    simp only [processHeadings] at h
    split at h
    · exact absurd h (by simp)
    · rename_i st2 hh
      exact ih st2 st' (processHeading_rowOk env dayIso st hd st2 hn hall hh) h

/-- A successful multi-day run preserves row well-formedness. -/
theorem scrapeDays_rowOk (env : Env)
    (hn : ∀ c : Char, c ≠ ',' → c ≠ ';' → ∀ d ∈ env.nfkd c, d ≠ ',' ∧ d ≠ ';') :
    ∀ (days : List Int) (st st' : ScrapeState),
      st.rows.all rowOk = true →
      scrapeDays env days st = Except.ok st' →
      st'.rows.all rowOk = true := by
  intro days
  induction days with
  | nil =>
    intro st st' hall h
    simp only [scrapeDays] at h
    rw [← Except.ok.inj h]
    exact hall
  | cons d ds ih =>
    intro st st' hall h
    simp only [scrapeDays] at h
    split at h
    · exact absurd h (by simp)
    · rename_i st2 hday
      refine ih st2 st' ?_ h
      simp only [scrapeDay] at hday
      split at hday
      · rw [← Except.ok.inj hday]
        exact hall
      · exact processHeadings_rowOk env _ hn _ st st2 hall hday

/-- C6 counterexample: with a comma inside the user-supplied output
directory, the run emits a row whose image-path field contains a literal
comma, so the claim fails as stated. -/
theorem csv_field_comma_outdir :
    (scrapeDay envCommaOutDir 0 ⟨[], [], []⟩).map (fun st => st.rows.map
      (fun r => r.getD 6 [])) =
      Except.ok ["out,dir/2024-01-01/mensa-academica_hauptgericht.jpg".toList] ∧
    ',' ∈ "out,dir/2024-01-01/mensa-academica_hauptgericht.jpg".toList := by
  constructor
  · rfl
  · decide

/-- C6 as amended: every line of the CSV output, the header included, has
exactly seven fields, and the description, type, diet and mensa fields of
every emitted row are free of commas and semicolons — provided the
external decomposition maps separator-free characters to separator-free
strings; no such guarantee covers the image-path field. -/
theorem csv_rows_shape_and_separators (env : Env)
    (hn : ∀ c : Char, c ≠ ',' → c ≠ ';' → ∀ d ∈ env.nfkd c, d ≠ ',' ∧ d ≠ ';')
    (days : List Int) (fs0 : List Str) (st1 : ScrapeState)
    (h : scrapeDays env days ⟨fs0, [], []⟩ = Except.ok st1) :
    (save_csv st1.rows).all rowOk = true := by
  unfold save_csv
  rw [List.all_cons, Bool.and_eq_true]
  refine ⟨by decide, ?_⟩
  exact scrapeDays_rowOk env hn days ⟨fs0, [], []⟩ st1 rfl h

/-- Witness for C6 on the worked example run. -/
theorem csv_rows_shape_and_separators_witness :
    (save_csv stateExample.rows).all rowOk = true :=
  csv_rows_shape_and_separators envExample
    (fun c hc hc2 d hd => by
      simp only [envExample] at hd
      rw [List.mem_singleton] at hd
      exact hd ▸ ⟨hc, hc2⟩)
    (daterange 0 0) [] stateExample (by rfl)

/-! ### Download deduplication by destination path (C5) -/

/-- Equation: a card without a description block is skipped. -/
theorem processCard_eq_noP (env : Env) (dayIso mensa : Str) (st : ScrapeState)
    (card : Card) (hp : card.pTag = none) :
    processCard env dayIso mensa st card = Except.ok st := by
  simp [processCard, hp]

/-- Equation: a card whose description filters to nothing is skipped. -/
theorem processCard_eq_noLines (env : Env) (dayIso mensa : Str) (st : ScrapeState)
    (card : Card) (pL : List Str) (hp : card.pTag = some pL)
    (hl : (descriptionLines pL).isEmpty = true) :
    processCard env dayIso mensa st card = Except.ok st := by
  simp [processCard, hp, hl]

/-- Equation: a card whose image does not resolve is skipped. -/
theorem processCard_eq_noUrl (env : Env) (dayIso mensa : Str) (st : ScrapeState)
    (card : Card) (pL : List Str) (hp : card.pTag = some pL)
    (hl : (descriptionLines pL).isEmpty = false)
    (hr : resolveImgUrl card = Except.ok none) :
    processCard env dayIso mensa st card = Except.ok st := by
  simp [processCard, hp, hl, hr]

/-- Equation: a card whose resolution raises propagates the error. -/
theorem processCard_eq_err (env : Env) (dayIso mensa : Str) (st : ScrapeState)
    (card : Card) (pL : List Str) (e : Unit) (hp : card.pTag = some pL)
    (hl : (descriptionLines pL).isEmpty = false)
    (hr : resolveImgUrl card = Except.error e) :
    processCard env dayIso mensa st card = Except.error e := by
  simp [processCard, hp, hl, hr]

/-- Equation: when the destination path already exists the fetch is
skipped, the state of the disk and of the fetch log is untouched, and the
row referencing the existing path is appended. -/
theorem processCard_eq_mem (env : Env) (dayIso mensa : Str) (st : ScrapeState)
    (card : Card) (pL : List Str) (u : Str) (hp : card.pTag = some pL)
    (hl : (descriptionLines pL).isEmpty = false)
    (hr : resolveImgUrl card = Except.ok (some u))
    (hm : cardPath env dayIso mensa card u ∈ st.fs) :
    processCard env dayIso mensa st card = Except.ok
      { st with rows := st.rows ++
          [rowOf env mensa pL card (cardPath env dayIso mensa card u)] } := by
  simp [processCard, hp, hl, hr, hm]

/-- Equation: when the destination path is absent and the network
succeeds, the path is recorded, the URL is fetched once and the row is
appended. -/
theorem processCard_eq_fetch (env : Env) (dayIso mensa : Str) (st : ScrapeState)
    (card : Card) (pL : List Str) (u : Str) (hp : card.pTag = some pL)
    (hl : (descriptionLines pL).isEmpty = false)
    (hr : resolveImgUrl card = Except.ok (some u))
    (hm : cardPath env dayIso mensa card u ∉ st.fs)
    (hn : env.net (urljoinBase u) = some ()) :
    processCard env dayIso mensa st card = Except.ok
      ⟨cardPath env dayIso mensa card u :: st.fs,
       st.fetches ++ [urljoinBase u],
       st.rows ++ [rowOf env mensa pL card (cardPath env dayIso mensa card u)]⟩ := by
  simp [processCard, hp, hl, hr, hm, hn]

/-- Equation: when the destination path is absent and the network fails,
the card is dropped. -/
theorem processCard_eq_netfail (env : Env) (dayIso mensa : Str) (st : ScrapeState)
    (card : Card) (pL : List Str) (u : Str) (hp : card.pTag = some pL)
    (hl : (descriptionLines pL).isEmpty = false)
    (hr : resolveImgUrl card = Except.ok (some u))
    (hm : cardPath env dayIso mensa card u ∉ st.fs)
    (hn : env.net (urljoinBase u) = none) :
    processCard env dayIso mensa st card = Except.ok st := by
  simp [processCard, hp, hl, hr, hm, hn]

/-- Rerun step for one card under a total network: from any state whose
disk contains everything the first run left for this card, the card
succeeds without touching the disk or the fetch log. -/
theorem processCard_rerun (env : Env) (dayIso mensa : Str) (card : Card)
    (hnet : ∀ u, env.net u = some ())
    (stA stA2 stB : ScrapeState)
    (h : processCard env dayIso mensa stA card = Except.ok stA2)
    (hsub : stA2.fs ⊆ stB.fs) :
    ∃ stB2, processCard env dayIso mensa stB card = Except.ok stB2 ∧
      stB2.fs = stB.fs ∧ stB2.fetches = stB.fetches := by
  cases hp : card.pTag with
  | none => exact ⟨stB, processCard_eq_noP env dayIso mensa stB card hp, rfl, rfl⟩
  | some pL =>
    cases hl : (descriptionLines pL).isEmpty with
    | true => exact ⟨stB, processCard_eq_noLines env dayIso mensa stB card pL hp hl, rfl, rfl⟩
    | false =>
      cases hr : resolveImgUrl card with
      | error e =>
        rw [processCard_eq_err env dayIso mensa stA card pL e hp hl hr] at h
        exact absurd h (by simp)
      | ok o =>
        cases o with
        | none => exact ⟨stB, processCard_eq_noUrl env dayIso mensa stB card pL hp hl hr, rfl, rfl⟩
        | some u =>
          have hpmem : cardPath env dayIso mensa card u ∈ stA2.fs := by
            by_cases hm : cardPath env dayIso mensa card u ∈ stA.fs
            · rw [processCard_eq_mem env dayIso mensa stA card pL u hp hl hr hm] at h
              rw [← Except.ok.inj h]
              exact hm
            · rw [processCard_eq_fetch env dayIso mensa stA card pL u hp hl hr hm
                (hnet _)] at h
              rw [← Except.ok.inj h]
              exact List.mem_cons_self _ _
          exact ⟨_, processCard_eq_mem env dayIso mensa stB card pL u hp hl hr
            (hsub hpmem), rfl, rfl⟩

/-- Rerun for a card list under a total network. -/
theorem processCards_rerun (env : Env) (dayIso mensa : Str)
    (hnet : ∀ u, env.net u = some ()) :
    ∀ (cards : List Card) (stA stA2 stB : ScrapeState),
      processCards env dayIso mensa cards stA = Except.ok stA2 →
      stA2.fs ⊆ stB.fs →
      ∃ stB2, processCards env dayIso mensa cards stB = Except.ok stB2 ∧
        stB2.fs = stB.fs ∧ stB2.fetches = stB.fetches := by
  intro cards
  induction cards with
  | nil =>
    intro stA stA2 stB h hsub
    exact ⟨stB, rfl, rfl, rfl⟩
  | cons c cs ih =>
    intro stA stA2 stB h hsub
    simp only [processCards] at h
    split at h
    · exact absurd h (by simp)
    · rename_i stX hc
      have hXsub : stX.fs ⊆ stA2.fs := (processCards_extends env dayIso mensa cs stX stA2 h).2
      obtain ⟨stB1, hB1, hBfs, hBfetch⟩ :=
        processCard_rerun env dayIso mensa c hnet stA stX stB hc
          (fun a ha => hsub (hXsub ha))
      obtain ⟨stB2, hB2, hB2fs, hB2fetch⟩ :=
        ih stX stA2 stB1 h (by rw [hBfs]; exact hsub)
      refine ⟨stB2, ?_, by rw [hB2fs, hBfs], by rw [hB2fetch, hBfetch]⟩
      simp only [processCards, hB1]
      exact hB2

/-- Rerun for one heading under a total network. -/
theorem processHeading_rerun (env : Env) (dayIso : Str) (hd : Heading)
    (hnet : ∀ u, env.net u = some ())
    (stA stA2 stB : ScrapeState)
    (h : processHeading env dayIso stA hd = Except.ok stA2)
    (hsub : stA2.fs ⊆ stB.fs) :
    ∃ stB2, processHeading env dayIso stB hd = Except.ok stB2 ∧
      stB2.fs = stB.fs ∧ stB2.fetches = stB.fetches := by
  simp only [processHeading] at h ⊢
  split at h
  · rename_i hw
    rw [if_pos hw]
    cases hc : hd.container with
    | none => exact ⟨stB, rfl, rfl, rfl⟩
    | some cards =>
      rw [hc] at h
      exact processCards_rerun env dayIso _ hnet cards stA stA2 stB h hsub
  · rename_i hw
    rw [if_neg hw]
    exact ⟨stB, rfl, rfl, rfl⟩

/-- Rerun for a heading list under a total network. -/
theorem processHeadings_rerun (env : Env) (dayIso : Str)
    (hnet : ∀ u, env.net u = some ()) :
    ∀ (hs : List Heading) (stA stA2 stB : ScrapeState),
      processHeadings env dayIso hs stA = Except.ok stA2 →
      stA2.fs ⊆ stB.fs →
      ∃ stB2, processHeadings env dayIso hs stB = Except.ok stB2 ∧
        stB2.fs = stB.fs ∧ stB2.fetches = stB.fetches := by
  intro hs
  induction hs with
  | nil =>
    intro stA stA2 stB h hsub
    exact ⟨stB, rfl, rfl, rfl⟩
  | cons hd tl ih =>
    intro stA stA2 stB h hsub
    simp only [processHeadings] at h
    split at h
    · exact absurd h (by simp)
    · rename_i stX hh
      have hXsub : stX.fs ⊆ stA2.fs := (processHeadings_extends env dayIso tl stX stA2 h).2
      obtain ⟨stB1, hB1, hBfs, hBfetch⟩ :=
        processHeading_rerun env dayIso hd hnet stA stX stB hh
          (fun a ha => hsub (hXsub ha))
      obtain ⟨stB2, hB2, hB2fs, hB2fetch⟩ :=
        ih stX stA2 stB1 h (by rw [hBfs]; exact hsub)
      refine ⟨stB2, ?_, by rw [hB2fs, hBfs], by rw [hB2fetch, hBfetch]⟩
      simp only [processHeadings, hB1]
      exact hB2

/-- A successful day list never shrinks the disk. -/
theorem scrapeDays_extends (env : Env) :
    ∀ (days : List Int) (st st' : ScrapeState),
      scrapeDays env days st = Except.ok st' → st.fs ⊆ st'.fs := by
  intro days
  induction days with
  | nil =>
    intro st st' h
    simp only [scrapeDays] at h
    rw [← Except.ok.inj h]
    exact fun a ha => ha
  | cons d ds ih =>
    intro st st' h
    simp only [scrapeDays] at h
    split at h
    · exact absurd h (by simp)
    · rename_i st2 hday
      exact ((scrapeDay_extends env d st st2 hday).2).trans (ih st2 st' h)

/-- Rerun for one day under a total network. -/
theorem scrapeDay_rerun (env : Env) (day : Int) (hnet : ∀ u, env.net u = some ())
    (stA stA2 stB : ScrapeState)
    (h : scrapeDay env day stA = Except.ok stA2)
    (hsub : stA2.fs ⊆ stB.fs) :
    ∃ stB2, scrapeDay env day stB = Except.ok stB2 ∧
      stB2.fs = stB.fs ∧ stB2.fetches = stB.fetches := by
  simp only [scrapeDay] at h ⊢
  cases hp : env.pages day with
  | none => exact ⟨stB, rfl, rfl, rfl⟩
  | some page =>
    rw [hp] at h
    exact processHeadings_rerun env _ hnet page.headings stA stA2 stB h hsub

/-- Rerun for a day list under a total network. -/
theorem scrapeDays_rerun (env : Env) (hnet : ∀ u, env.net u = some ()) :
    ∀ (days : List Int) (stA stA2 stB : ScrapeState),
      scrapeDays env days stA = Except.ok stA2 →
      stA2.fs ⊆ stB.fs →
      ∃ stB2, scrapeDays env days stB = Except.ok stB2 ∧
        stB2.fs = stB.fs ∧ stB2.fetches = stB.fetches := by
  intro days
  induction days with
  | nil =>
    intro stA stA2 stB h hsub
    exact ⟨stB, rfl, rfl, rfl⟩
  | cons d ds ih =>
    intro stA stA2 stB h hsub
    simp only [scrapeDays] at h
    split at h
    · exact absurd h (by simp)
    · rename_i stX hday
      have hXsub : stX.fs ⊆ stA2.fs := scrapeDays_extends env ds stX stA2 h
      obtain ⟨stB1, hB1, hBfs, hBfetch⟩ :=
        scrapeDay_rerun env d hnet stA stX stB hday (fun a ha => hsub (hXsub ha))
      obtain ⟨stB2, hB2, hB2fs, hB2fetch⟩ :=
        ih stX stA2 stB1 h (by rw [hBfs]; exact hsub)
      refine ⟨stB2, ?_, by rw [hB2fs, hBfs], by rw [hB2fetch, hBfetch]⟩
      simp only [scrapeDays, hB1]
      exact hB2

/-- C5 counterexample: two same-day cards under the same heading with the
same dish type but image URLs differing in extension cause two fetches
and two rows referencing different image paths, against the claim that
identical (day, mensa, dishType) fetch at most once and share one
path. -/
theorem image_fetch_twice_same_mensa_type :
    (scrapeDay envTwoExt 0 ⟨[], [], []⟩).map
      (fun st => (st.fetches.length, st.rows.map (fun r => r.getD 6 []))) =
      Except.ok (2, ["images/2024-01-01/mensa-academica_hauptgericht.jpg".toList,
                     "images/2024-01-01/mensa-academica_hauptgericht.png".toList]) ∧
    dishTypeOf cardPastaJpg = dishTypeOf cardSuppePng ∧
    ("images/2024-01-01/mensa-academica_hauptgericht.jpg".toList : Str) ≠
      "images/2024-01-01/mensa-academica_hauptgericht.png".toList := by
  refine ⟨rfl, rfl, by decide⟩

/-- C5 as amended: downloads are deduplicated by the full destination
path, which carries the URL extension besides day, mensa and dish type.
An existing destination path skips the fetch and is treated as success,
the row referencing that path; a fetch happens only for a missing
destination path, which it then records; two same-day cards with the same
destination path cause at most one fetch, both surviving rows referencing
the same path; and re-running over the disk state of a fully successful
run fetches nothing. -/
theorem dedup_by_destination_path :
    (∀ (env : Env) (dayIso mensa : Str) (st : ScrapeState) (card : Card)
       (pL : List Str) (u : Str),
       card.pTag = some pL → (descriptionLines pL).isEmpty = false →
       resolveImgUrl card = Except.ok (some u) →
       cardPath env dayIso mensa card u ∈ st.fs →
       processCard env dayIso mensa st card = Except.ok
         { st with rows := st.rows ++
             [rowOf env mensa pL card (cardPath env dayIso mensa card u)] }) ∧
    (∀ (env : Env) (dayIso mensa : Str) (st st' : ScrapeState) (card : Card),
       processCard env dayIso mensa st card = Except.ok st' →
       st'.fetches ≠ st.fetches →
       ∃ pL u, card.pTag = some pL ∧ resolveImgUrl card = Except.ok (some u) ∧
         cardPath env dayIso mensa card u ∉ st.fs ∧
         st'.fs = cardPath env dayIso mensa card u :: st.fs ∧
         st'.fetches = st.fetches ++ [urljoinBase u]) ∧
    (∀ (env : Env) (dayIso mensa : Str) (st st1 st2 : ScrapeState)
       (card1 card2 : Card) (pL1 pL2 : List Str) (u1 u2 : Str),
       card1.pTag = some pL1 → (descriptionLines pL1).isEmpty = false →
       resolveImgUrl card1 = Except.ok (some u1) →
       card2.pTag = some pL2 → (descriptionLines pL2).isEmpty = false →
       resolveImgUrl card2 = Except.ok (some u2) →
       cardPath env dayIso mensa card1 u1 = cardPath env dayIso mensa card2 u2 →
       env.net (urljoinBase u1) = some () →
       processCard env dayIso mensa st card1 = Except.ok st1 →
       processCard env dayIso mensa st1 card2 = Except.ok st2 →
       st2.fetches = st1.fetches ∧ st1.fetches.length ≤ st.fetches.length + 1 ∧
       st2.rows = st1.rows ++
         [rowOf env mensa pL2 card2 (cardPath env dayIso mensa card1 u1)]) ∧
    (∀ (env : Env) (days : List Int) (fs0 : List Str) (st1 : ScrapeState),
       (∀ u, env.net u = some ()) →
       scrapeDays env days ⟨fs0, [], []⟩ = Except.ok st1 →
       (scrapeDays env days ⟨st1.fs, [], []⟩).map (fun st => st.fetches) =
         Except.ok ([] : List Str)) := by
  refine ⟨?_, ?_, ?_, ?_⟩
  · intro env dayIso mensa st card pL u hp hl hr hm
    exact processCard_eq_mem env dayIso mensa st card pL u hp hl hr hm
  · intro env dayIso mensa st st' card h h2
    rcases processCard_cases env dayIso mensa st card st' h with
      rfl | ⟨pL, u, hp, hl, hr, hc | hc⟩
    · exact absurd rfl h2
    · rw [hc.2] at h2
      exact absurd rfl h2
    · exact ⟨pL, u, hp, hr, hc.1, by rw [hc.2.2], by rw [hc.2.2]⟩
  · intro env dayIso mensa st st1 st2 card1 card2 pL1 pL2 u1 u2 hp1 hl1 hr1
      hp2 hl2 hr2 hpeq hn1 h1 h2
    have hm2base : cardPath env dayIso mensa card1 u1 ∈ st1.fs := by
      by_cases hm1 : cardPath env dayIso mensa card1 u1 ∈ st.fs
      · rw [processCard_eq_mem env dayIso mensa st card1 pL1 u1 hp1 hl1 hr1 hm1] at h1
        rw [← Except.ok.inj h1]
        exact hm1
      · rw [processCard_eq_fetch env dayIso mensa st card1 pL1 u1 hp1 hl1 hr1 hm1
          hn1] at h1
        rw [← Except.ok.inj h1]
        exact List.mem_cons_self _ _
    have hbound : st1.fetches.length ≤ st.fetches.length + 1 := by
      by_cases hm1 : cardPath env dayIso mensa card1 u1 ∈ st.fs
      · rw [processCard_eq_mem env dayIso mensa st card1 pL1 u1 hp1 hl1 hr1 hm1] at h1
        rw [← Except.ok.inj h1]
        exact Nat.le_succ _
      · rw [processCard_eq_fetch env dayIso mensa st card1 pL1 u1 hp1 hl1 hr1 hm1
          hn1] at h1
        rw [← Except.ok.inj h1]
        simp
    have heq2 : processCard env dayIso mensa st1 card2 = Except.ok
        { st1 with rows := st1.rows ++
            [rowOf env mensa pL2 card2 (cardPath env dayIso mensa card2 u2)] } :=
      processCard_eq_mem env dayIso mensa st1 card2 pL2 u2 hp2 hl2 hr2 (hpeq ▸ hm2base)
    rw [heq2] at h2
    have hst2 := Except.ok.inj h2
    refine ⟨by rw [← hst2], hbound, by rw [← hst2, hpeq]⟩
  · intro env days fs0 st1 hnet h
    obtain ⟨st2, h2, _, hfetch⟩ := scrapeDays_rerun env hnet days
      ⟨fs0, [], []⟩ st1 ⟨st1.fs, [], []⟩ h (fun a ha => ha)
    rw [h2]
    simp only [Except.map]
    rw [hfetch]

/-- Witness for C5: on the worked example, a state already holding the
destination file makes the card succeed without fetching, and rerunning
the whole one-day range over the produced disk state fetches nothing. -/
theorem dedup_by_destination_path_witness :
    processCard envExample "2024-01-01".toList "Mensa Academica".toList stateExample
        cardExample = Except.ok
      { stateExample with rows := stateExample.rows ++
          [rowOf envExample "Mensa Academica".toList
            ["Pasta Bolognese".toList, "Beilagensalat optional".toList] cardExample
            (cardPath envExample "2024-01-01".toList "Mensa Academica".toList
              cardExample "/img/pasta.jpg".toList)] } ∧
    (scrapeDays envExample (daterange 0 0) ⟨stateExample.fs, [], []⟩).map
      (fun st => st.fetches) = Except.ok ([] : List Str) :=
  ⟨dedup_by_destination_path.1 envExample "2024-01-01".toList
      "Mensa Academica".toList stateExample cardExample
      ["Pasta Bolognese".toList, "Beilagensalat optional".toList]
      "/img/pasta.jpg".toList rfl rfl rfl (by decide),
   dedup_by_destination_path.2.2.2 envExample (daterange 0 0) [] stateExample
      (fun u => rfl) (by rfl)⟩

end Scrape
